import Mathlib

/-!
Shallow embedding of the chunk serializer in `src/lib.rs` (the `yek` crate).

Modelling conventions:
* Rust `String` / `&[u8]` values are byte sequences, embedded as `List Nat`
  (each element a byte value).  `String::len` is the byte length, i.e.
  `List.length`.
* The regex engine (`regex::Regex`) is external; it is abstracted as a
  compilation oracle `String → Option (Bytes → Bool)` (`None` models a
  pattern that fails to compile, mirroring `Regex::new` returning `Err`).
* Filesystem and process effects are abstracted as oracles recorded in the
  input (`WalkItem` below); `HashMap` iteration order, which Rust leaves
  unspecified, is made explicit by passing the map as an association list
  in iteration order.
* Rust `slice::sort_by` / `sort_by_key` are stable sorts; a stable sort is
  uniquely determined by the comparator and the input order, so they are
  embedded as `List.insertionSort` with the corresponding relation.
* `f64` rank arithmetic in `compute_recentness_boost` is modelled by exact
  rational arithmetic (`roundRatio`), with rounding half away from zero as
  `f64::round` does.
-/

/-- Byte strings: the contents of a Rust `String` or `&[u8]`. -/
abbrev Bytes := List Nat

/-- Encode an ASCII Lean string as bytes (used for the ASCII literal pieces
of chunk headers, whose UTF-8 encoding is one byte per character). -/
def strBytes (s : String) : Bytes := s.data.map Char.toNat

/-- Decimal digits of a natural number as bytes (`format!` of an integer). -/
def natBytes (n : Nat) : Bytes := (Nat.toDigits 10 n).map Char.toNat

/-- Is `b` a UTF-8 continuation byte (0x80..0xBF)? -/
def isCont (b : Nat) : Bool := 0x80 ≤ b && b ≤ 0xBF

/-- The UTF-8 encoding of U+FFFD REPLACEMENT CHARACTER. -/
def replacementBytes : Bytes := [0xEF, 0xBF, 0xBD]

/-- Valid second byte of a three-byte sequence led by `b0`. -/
def cont3ok (b0 b1 : Nat) : Bool :=
  if b0 = 0xE0 then 0xA0 ≤ b1 && b1 ≤ 0xBF
  else if b0 = 0xED then 0x80 ≤ b1 && b1 ≤ 0x9F
  else isCont b1

/-- Valid second byte of a four-byte sequence led by `b0`. -/
def cont4ok (b0 b1 : Nat) : Bool :=
  if b0 = 0xF0 then 0x90 ≤ b1 && b1 ≤ 0xBF
  else if b0 = 0xF4 then 0x80 ≤ b1 && b1 ≤ 0x8F
  else isCont b1

/-- Fuel-indexed body of `utf8Lossy`: UTF-8 validation that replaces each
maximal bogus subsequence with U+FFFD (WHATWG decoding, the documented
behaviour of `String::from_utf8_lossy`).  Each step consumes at least one
byte, so any `fuel ≥ length` computes the full result; the fuel makes the
recursion structural, hence kernel-computable. -/
def utf8LossyF : Nat → Bytes → Bytes
  | _, [] => []
  | 0, _ :: _ => []
  | fuel + 1, b :: rest =>
    if b < 0x80 then b :: utf8LossyF fuel rest
    else if b < 0xC2 then replacementBytes ++ utf8LossyF fuel rest
    else if b ≤ 0xDF then
      match rest with
      | [] => replacementBytes
      | b1 :: rest2 =>
        if isCont b1 then b :: b1 :: utf8LossyF fuel rest2
        else replacementBytes ++ utf8LossyF fuel (b1 :: rest2)
    else if b ≤ 0xEF then
      match rest with
      | [] => replacementBytes
      | b1 :: rest2 =>
        if cont3ok b b1 then
          match rest2 with
          | [] => replacementBytes
          | b2 :: rest3 =>
            if isCont b2 then b :: b1 :: b2 :: utf8LossyF fuel rest3
            else replacementBytes ++ utf8LossyF fuel (b2 :: rest3)
        else replacementBytes ++ utf8LossyF fuel (b1 :: rest2)
    else if b ≤ 0xF4 then
      match rest with
      | [] => replacementBytes
      | b1 :: rest2 =>
        if cont4ok b b1 then
          match rest2 with
          | [] => replacementBytes
          | b2 :: rest3 =>
            if isCont b2 then
              match rest3 with
              | [] => replacementBytes
              | b3 :: rest4 =>
                if isCont b3 then b :: b1 :: b2 :: b3 :: utf8LossyF fuel rest4
                else replacementBytes ++ utf8LossyF fuel (b3 :: rest4)
            else replacementBytes ++ utf8LossyF fuel (b2 :: rest3)
        else replacementBytes ++ utf8LossyF fuel (b1 :: rest2)
    else replacementBytes ++ utf8LossyF fuel rest

/-- `String::from_utf8_lossy` on a byte string. -/
def utf8Lossy (l : Bytes) : Bytes := utf8LossyF l.length l

/-- ASCII whitespace, the fragment of `char::is_whitespace` relevant to
byte-encoded text (multi-byte Unicode whitespace is outside this model). -/
def isWs (b : Nat) : Bool :=
  b == 0x20 || b == 0x09 || b == 0x0A || b == 0x0D || b == 0x0B || b == 0x0C

/-- Fuel-indexed body of `splitWS` (each step consumes at least one byte,
so any `fuel ≥ length` computes the full result). -/
def splitWSF : Nat → Bytes → List Bytes
  | _, [] => []
  | 0, _ :: _ => []
  | fuel + 1, b :: rest =>
    if isWs b then splitWSF fuel rest
    else (b :: rest.takeWhile (fun c => !isWs c)) ::
      splitWSF fuel (rest.dropWhile (fun c => !isWs c))

/-- `str::split_whitespace`: maximal runs of non-whitespace bytes. -/
def splitWS (l : Bytes) : List Bytes := splitWSF l.length l

/-- `Vec<&str>::join(" ")` on byte-encoded tokens. -/
def joinSpace (tokens : List Bytes) : Bytes := List.intercalate [0x20] tokens

/-- A priority rule from the configuration (`PriorityRule` in the source). -/
structure PriorityRule where
  pattern : String
  score : Int
deriving DecidableEq

/-- The run configuration (`YekConfig`).  `output_dir` is a filesystem
path used only for effects and is not part of the value model. -/
structure YekConfig where
  ignore_patterns : List String
  priority_rules : List PriorityRule
  binary_extensions : List String
  max_size : Option Nat
  stream : Bool
  token_mode : Bool
deriving DecidableEq

/-- `DEFAULT_CHUNK_SIZE` from the source: 10 MiB. -/
def DEFAULT_CHUNK_SIZE : Nat := 10 * 1024 * 1024

/-- One file appended to the in-progress chunk buffer: the header text
`chunk <idx>\n>>>> <path>\n` followed by the content and a newline.  The
chunk index is recorded at push time, exactly as the source renders the
header into the buffer with the current `chunk_idx`. -/
structure Frag where
  idx : Nat
  path : Bytes
  content : Bytes
deriving DecidableEq

/-- One call to `write_single_chunk`: either a flushed buffer (`chunk`) or
one forced-split slice of an oversized file (`part`).  For `part`, `content`
is the byte string embedded in the body (after `from_utf8_lossy` in byte
mode, the space-joined token slice in token mode). -/
inductive Out where
  | chunk (idx : Nat) (frags : List Frag)
  | part (idx : Nat) (partNo : Nat) (path : Bytes) (content : Bytes)
deriving DecidableEq

/-- Mutable state of the `write_chunks` loop. -/
structure WState where
  chunk_idx : Nat
  buffer : List Frag
  used_size : Nat
deriving DecidableEq

/-- Flush a non-empty buffer as a chunk and advance the index (the
`if !buffer.is_empty()` flush blocks in the source). -/
def flushChunk (st : WState) : List Out × WState :=
  if st.buffer.isEmpty then ([], st)
  else ([Out.chunk st.chunk_idx st.buffer], ⟨st.chunk_idx + 1, [], 0⟩)

/-- The forced-split `while start < file_len` loop of byte mode.  `fuel`
bounds the iteration count; `none` means the loop did not finish within
`fuel` steps (with `chunk_size = 0` the source loop never terminates).
Returns the emitted parts and the final `chunk_idx`. -/
def splitLoopBytes (chunk_size : Nat) (path content : Bytes) :
    Nat → Nat → Nat → Nat → Option (List Out × Nat)
  | 0, _, _, _ => none
  | fuel + 1, chunk_idx, partNo, start =>
    if start < content.length then
      let e := min (start + chunk_size) content.length
      let slice := (content.drop start).take (e - start)
      match splitLoopBytes chunk_size path content fuel (chunk_idx + 1) (partNo + 1) e with
      | none => none
      | some (outs, idx) =>
        some (Out.part chunk_idx partNo path (utf8Lossy slice) :: outs, idx)
    else
      some ([], chunk_idx)

/-- The forced-split loop of token mode (slices of the token list, joined
with single spaces in the emitted body). -/
def splitLoopTokens (chunk_size : Nat) (path : Bytes) (tokens : List Bytes) :
    Nat → Nat → Nat → Nat → Option (List Out × Nat)
  | 0, _, _, _ => none
  | fuel + 1, chunk_idx, partNo, start =>
    if start < tokens.length then
      let e := min (start + chunk_size) tokens.length
      let slice := (tokens.drop start).take (e - start)
      match splitLoopTokens chunk_size path tokens fuel (chunk_idx + 1) (partNo + 1) e with
      | none => none
      | some (outs, idx) =>
        some (Out.part chunk_idx partNo path (joinSpace slice) :: outs, idx)
    else
      some ([], chunk_idx)

/-- A collected `(rel_path, content, priority)` entry. -/
structure Entry where
  path : Bytes
  content : Bytes
  prio : Int
deriving DecidableEq

/-- The per-file body of `write_chunks`, one entry at a time.  Mirrors the
source loop: in both measurement modes, a file whose own measure is at
least `chunk_size` flushes the buffer and is force-split; otherwise the
buffer is flushed first when adding the file (content measure plus the
`10 + rel_path.len()` overhead) would push `used_size` over `chunk_size`,
and the file is appended to the buffer. -/
def writeLoop (chunk_size : Nat) (token_mode : Bool) (fuel : Nat) :
    List Entry → WState → Option (List Out)
  | [], st => some (if st.buffer.isEmpty then [] else [Out.chunk st.chunk_idx st.buffer])
  | e :: rest, st =>
    if token_mode then
      let tokens := splitWS e.content
      let file_tokens := tokens.length
      if file_tokens ≥ chunk_size then
        let fl := flushChunk st
        match splitLoopTokens chunk_size e.path tokens fuel fl.2.chunk_idx 0 0 with
        | none => none
        | some (parts, idx) =>
          match writeLoop chunk_size token_mode fuel rest ⟨idx, fl.2.buffer, fl.2.used_size⟩ with
          | none => none
          | some outs => some (fl.1 ++ parts ++ outs)
      else
        let overhead := 10 + e.path.length
        let add_size := file_tokens + overhead
        let fl :=
          if st.used_size + add_size > chunk_size && !st.buffer.isEmpty then flushChunk st
          else ([], st)
        let st2 : WState :=
          ⟨fl.2.chunk_idx, fl.2.buffer ++ [⟨fl.2.chunk_idx, e.path, e.content⟩],
            fl.2.used_size + add_size⟩
        match writeLoop chunk_size token_mode fuel rest st2 with
        | none => none
        | some outs => some (fl.1 ++ outs)
    else
      let file_len := e.content.length
      if file_len ≥ chunk_size then
        let fl := flushChunk st
        match splitLoopBytes chunk_size e.path e.content fuel fl.2.chunk_idx 0 0 with
        | none => none
        | some (parts, idx) =>
          match writeLoop chunk_size token_mode fuel rest ⟨idx, fl.2.buffer, fl.2.used_size⟩ with
          | none => none
          | some outs => some (fl.1 ++ parts ++ outs)
      else
        let overhead := 10 + e.path.length
        let add_size := file_len + overhead
        let fl :=
          if st.used_size + add_size > chunk_size && !st.buffer.isEmpty then flushChunk st
          else ([], st)
        let st2 : WState :=
          ⟨fl.2.chunk_idx, fl.2.buffer ++ [⟨fl.2.chunk_idx, e.path, e.content⟩],
            fl.2.used_size + add_size⟩
        match writeLoop chunk_size token_mode fuel rest st2 with
        | none => none
        | some outs => some (fl.1 ++ outs)

/-- `write_chunks`: run the loop from the initial state and flush the final
buffer.  The emitted calls to `write_single_chunk` are returned in order;
`none` models non-termination of a forced-split loop within `fuel`. -/
def write_chunks (entries : List Entry) (config : YekConfig) (fuel : Nat) :
    Option (List Out) :=
  let chunk_size := config.max_size.getD DEFAULT_CHUNK_SIZE
  writeLoop chunk_size config.token_mode fuel entries ⟨0, [], 0⟩

/-- The output file name chosen by `write_single_chunk` in non-streaming
mode: `chunk-<idx>.txt`, or `chunk-<idx>-part-<part>.txt` for a part. -/
def chunkFileName : Out → String
  | Out.chunk idx _ => "chunk-" ++ toString idx ++ ".txt"
  | Out.part idx p _ _ => "chunk-" ++ toString idx ++ "-part-" ++ toString p ++ ".txt"

/-- Rendered header of a buffered file: `chunk <idx>\n>>>> <path>\n`. -/
def headerBytes (idx : Nat) (path : Bytes) : Bytes :=
  strBytes "chunk " ++ natBytes idx ++ [10] ++ strBytes ">>>> " ++ path ++ [10]

/-- Rendered bytes a buffered file contributes to its chunk body. -/
def renderFrag (f : Frag) : Bytes := headerBytes f.idx f.path ++ f.content ++ [10]

/-- Rendered body of one `write_single_chunk` call (the exact bytes written
to the chunk file or streamed to stdout). -/
def renderOut : Out → Bytes
  | Out.chunk _ frags => (frags.map renderFrag).flatten
  | Out.part idx p path content =>
    strBytes "chunk " ++ natBytes idx ++ [10] ++ strBytes ">>>> " ++ path ++
      strBytes ":part " ++ natBytes p ++ [10] ++ content ++ [10]

/-- All bytes produced by a run, in emission order. -/
def renderAll (outs : List Out) : Bytes := (outs.map renderOut).flatten

/-- The `filter_map` stage of `get_file_priority`: the scores of the rules
whose (successfully compiled) pattern matches the path, in rule order. -/
def matchedScores (compileRe : String → Option (Bytes → Bool))
    (path : Bytes) (rules : List PriorityRule) : List Int :=
  rules.filterMap (fun rule =>
    match compileRe rule.pattern with
    | none => none
    | some re => if re path then some rule.score else none)

/-- `get_file_priority`: the maximum score among rules whose (successfully
compiled) pattern matches the path, and 0 when no rule matches
(`.max().unwrap_or(0)`).  `compileRe` is the regex-engine oracle. -/
def get_file_priority (compileRe : String → Option (Bytes → Bool))
    (path : Bytes) (rules : List PriorityRule) : Int :=
  (matchedScores compileRe path rules).max?.getD 0

/-- Rounding of the exact rational `num / den` (for `den > 0`) to the
nearest integer, halves away from zero: the exact-arithmetic model of the
`(rank * max_boost as f64).round()` computation. -/
def roundRatio (num : Int) (den : Nat) : Int :=
  if num < 0 then -(((2 * (-num).toNat + den) / (2 * den) : Nat) : Int)
  else ((2 * num.toNat + den) / (2 * den) : Nat)

/-- Ordering used by `sorted.sort_by_key(|(_, t)| **t)`: ascending commit
time. -/
def timeLe (a b : Bytes × Nat) : Prop := a.2 ≤ b.2

instance : DecidableRel timeLe := fun a b => inferInstanceAs (Decidable (a.2 ≤ b.2))

/-- `HashMap::get` on the explicit association list (keys are unique in a
`HashMap`; the list order is the iteration order). -/
def hmGet (k : Bytes) : List (Bytes × Int) → Option Int
  | [] => none
  | (k2, v) :: rest => if k2 = k then some v else hmGet k rest

/-- `HashMap::get` for the commit-time map. -/
def hmGetNat (k : Bytes) : List (Bytes × Nat) → Option Nat
  | [] => none
  | (k2, v) :: rest => if k2 = k then some v else hmGetNat k rest

/-- The `for (i, (path, _time)) in sorted.iter().enumerate()` loop of
`compute_recentness_boost`: each file at sorted position `i` gets boost
`round(i / last_index * max_boost)`. -/
def rankMap (max_boost : Int) (last_index : Nat) :
    Nat → List (Bytes × Nat) → List (Bytes × Int)
  | _, [] => []
  | i, (path, _) :: rest =>
    (path, roundRatio ((i : Int) * max_boost) last_index) ::
      rankMap max_boost last_index (i + 1) rest

/-- `compute_recentness_boost`: stable-sort the map (in its iteration
order `commit_times`) by ascending commit time, rank each file by its
sorted position, scale `rank / last_index` by `max_boost` and round.
With 0 or 1 entries no ranking exists and every boost is 0. -/
def compute_recentness_boost (commit_times : List (Bytes × Nat))
    (max_boost : Int) : List (Bytes × Int) :=
  if commit_times.isEmpty then []
  else
    let sorted := List.insertionSort timeLe commit_times
    let last_index : Nat := sorted.length - 1
    if last_index < 1 then
      commit_times.map (fun p => (p.1, 0))
    else
      rankMap max_boost last_index 0 sorted

/-- Lexicographic byte-string order: `Ord::cmp` on Rust `String`s. -/
def bytesLe : Bytes → Bytes → Prop
  | [], _ => True
  | _ :: _, [] => False
  | a :: as, b :: bs => a < b ∨ (a = b ∧ bytesLe as bs)

instance : DecidableRel bytesLe := fun a b => by
  induction a generalizing b with
  | nil => exact isTrue trivial
  | cons x xs ih =>
    cases b with
    | nil => exact isFalse not_false
    | cons y ys => exact @instDecidableOr _ _ _ (@instDecidableAnd _ _ _ (ih ys))

/-- The sort comparator of `serialize_repo`:
`a.2.cmp(&b.2).then_with(|| a.0.cmp(&b.0))` is non-`Greater`, i.e.
ascending priority with ties broken by ascending path. -/
def entryLe (a b : Entry) : Prop :=
  a.prio < b.prio ∨ (a.prio = b.prio ∧ bytesLe a.path b.path)

instance : DecidableRel entryLe := fun a b =>
  @instDecidableOr _ _ _ (@instDecidableAnd _ _ _ (inferInstanceAs (Decidable (bytesLe a.path b.path))))

deriving instance DecidableEq for Except

/-- One event of the directory walk, as seen by the loop body of
`serialize_repo` after the `filter_entry` filtering: a per-entry traversal
error, a non-file entry, or a file with the outcomes of the
`is_text_file` call and of the `fs::read` call. -/
inductive WalkItem where
  | err (msg : String)
  | dir (path : Bytes)
  | file (path : Bytes) (isText : Except String Bool) (readContent : Except String Bytes)
deriving DecidableEq

/-- The collection loop of `serialize_repo` (lines 550-588): `?` on the
walk entry, skip non-files, `?` on `is_text_file`, skip binary files,
`?` on `fs::read`, then score the file with `get_file_priority` plus the
recency boost (the boost map is recomputed per matched file, as in the
source; being pure, every recomputation yields the same map). -/
def collectEntries (compileRe : String → Option (Bytes → Bool))
    (rules : List PriorityRule) (git_times : Option (List (Bytes × Nat))) :
    List WalkItem → Except String (List Entry)
  | [] => Except.ok []
  | item :: rest =>
    match item with
    | WalkItem.err e => Except.error e
    | WalkItem.dir _ => collectEntries compileRe rules git_times rest
    | WalkItem.file path isText readContent =>
      match isText with
      | Except.error e => Except.error e
      | Except.ok false => collectEntries compileRe rules git_times rest
      | Except.ok true =>
        match readContent with
        | Except.error e => Except.error e
        | Except.ok content =>
          let p0 := get_file_priority compileRe path rules
          let priority :=
            match git_times with
            | none => p0
            | some times =>
              if (hmGetNat path times).isSome then
                p0 + (hmGet path (compute_recentness_boost times 50)).getD 0
              else p0
          match collectEntries compileRe rules git_times rest with
          | Except.error e => Except.error e
          | Except.ok entries => Except.ok (⟨path, content, priority⟩ :: entries)

/-- `serialize_repo` after configuration validation: collect entries (any
`?`-propagated error aborts), stable-sort by `(priority, path)`, and pack
with `write_chunks`.  Streaming and file output emit the same `Out`
sequence.  `git_times` is the commit-time map in iteration order (`None`
when history is unavailable). -/
def serialize_repo (compileRe : String → Option (Bytes → Bool))
    (config : YekConfig) (git_times : Option (List (Bytes × Nat)))
    (items : List WalkItem) (fuel : Nat) : Except String (Option (List Out)) :=
  match collectEntries compileRe config.priority_rules git_times items with
  | Except.error e => Except.error e
  | Except.ok entries =>
    Except.ok (write_chunks (List.insertionSort entryLe entries) config fuel)

/-- A collected validation diagnostic (`ConfigError`). -/
structure ConfigError where
  field : String
  message : String
deriving DecidableEq

/-- `validate_config`.  The regex and glob compilation checks are fed by
the oracle `compileErr` (`none` = compiles, `some e` = the error text);
the filesystem checks on `output_dir` are effects outside this model. -/
def validate_config (compileErr : String → Option String) (config : YekConfig) :
    List ConfigError :=
  (config.priority_rules.flatMap (fun rule =>
    (if rule.score < 0 || rule.score > 1000 then
      [ConfigError.mk "priority_rules"
        ("Priority score " ++ toString rule.score ++ " must be between 0 and 1000")]
    else []) ++
    (if rule.pattern = "" then
      [ConfigError.mk "priority_rules" "Priority rule must have a pattern"]
    else []) ++
    (match compileErr rule.pattern with
     | some e => [ConfigError.mk "priority_rules"
        ("Invalid regex pattern " ++ rule.pattern ++ ": " ++ e)]
     | none => []))) ++
  (config.ignore_patterns.flatMap (fun pattern =>
    match compileErr pattern with
    | some e => [ConfigError.mk "ignore_patterns"
        ("Invalid pattern " ++ pattern ++ ": " ++ e)]
    | none => [])) ++
  (match config.max_size with
   | some 0 => [ConfigError.mk "max_size" "Max size cannot be 0"]
   | _ => [])

/-- Strip every leading `.` from a user binary-extension entry
(`e.trim_start_matches` in the source).  Extension strings are byte
strings like every other Rust `String` in this model. -/
def trimStartDots (s : Bytes) : Bytes := s.dropWhile (fun b => b == 46)

/-- `str::to_lowercase` on the ASCII extension strings this code
compares (the Unicode cases of full lowercasing do not arise for file
extensions made of ASCII letters and digits). -/
def toLowerAscii (s : Bytes) : Bytes :=
  s.map (fun b => if 65 ≤ b && b ≤ 90 then b + 32 else b)

/-- The extension fast path of `is_text_file` (true = classified binary
without reading content): the file extension is lowercased and looked up
verbatim in the built-in set, or compared with each user entry after
stripping the entry of leading dots.  `builtin` stands for
`defaults::BINARY_FILE_EXTENSIONS`, whose source file is not part of this
tree; per the spec it is a fixed set of (lowercase) extension strings. -/
def binaryByExtension (builtin : List Bytes) (user_binary_extensions : List Bytes)
    (ext : Option Bytes) : Bool :=
  match ext with
  | none => false
  | some e =>
    let extLc := toLowerAscii e
    builtin.contains extLc ||
      user_binary_extensions.any (fun u => trimStartDots u == extLc)

/-- Modelled from the spec: the claimed fast-path criterion, with the
extension and the listed entries compared case-insensitively and with
leading dots ignored on both sides. -/
def binaryByExtensionSpec (builtin : List Bytes) (user : List Bytes)
    (ext : Option Bytes) : Bool :=
  match ext with
  | none => false
  | some e =>
    (builtin ++ user).any
      (fun u => toLowerAscii (trimStartDots u) == toLowerAscii (trimStartDots e))

/-- Ground truth of the regex engine on the two concrete patterns of the
spec example: `.*\.rs$` matches the byte strings ending in `.rs`, and
`^src/` matches those starting with `src/` (paths contain no newline). -/
def exampleCompile : String → Option (Bytes → Bool) := fun pat =>
  if pat = ".*\\.rs$" then some (fun p => p.drop (p.length - 3) = strBytes ".rs")
  else if pat = "^src/" then some (fun p => p.take 4 = strBytes "src/")
  else none

/-- C3: the claim asserts a single `chunk-0.txt` holding both files; the
code flushes `a.txt` alone before `b.txt` is appended, because
`used_size + add_size = (5+15) + (7+15) = 42 > 20`, so two chunk files are
produced, not one. -/
theorem C3_counterexample :
    (write_chunks [⟨strBytes "a.txt", strBytes "hello", 0⟩,
        ⟨strBytes "b.txt", strBytes "world!!", 1⟩]
      ⟨[], [], [], some 20, false, false⟩ 100).map List.length ≠ some 1 := by
  decide

/-- C3 (amended): byte mode, threshold 20, `a.txt`="hello" (priority 0),
`b.txt`="world!!" (priority 1): the output is two chunk files,
`chunk-0.txt` holding `a.txt` and `chunk-1.txt` holding `b.txt`, in that
order (the two files together account for 42 > 20, so they cannot share a
chunk). -/
theorem C3_amended_two_chunks :
    write_chunks [⟨strBytes "a.txt", strBytes "hello", 0⟩,
        ⟨strBytes "b.txt", strBytes "world!!", 1⟩]
      ⟨[], [], [], some 20, false, false⟩ 100 =
      some [Out.chunk 0 [⟨0, strBytes "a.txt", strBytes "hello"⟩],
            Out.chunk 1 [⟨1, strBytes "b.txt", strBytes "world!!"⟩]] ∧
    (write_chunks [⟨strBytes "a.txt", strBytes "hello", 0⟩,
        ⟨strBytes "b.txt", strBytes "world!!", 1⟩]
      ⟨[], [], [], some 20, false, false⟩ 100).map (List.map chunkFileName) =
      some ["chunk-0.txt", "chunk-1.txt"] := by
  constructor
  · decide
  · decide

/-- C4: the claim asserts part files `chunk-0-part-0.txt` and
`chunk-0-part-1.txt`; the code advances the chunk index once per emitted
slice, so the second part is written to `chunk-1-part-1.txt`. -/
theorem C4_counterexample :
    (write_chunks [⟨strBytes "f.txt", strBytes "0123456789012345678901234", 0⟩]
      ⟨[], [], [], some 20, false, false⟩ 100).map (List.map chunkFileName) ≠
      some ["chunk-0-part-0.txt", "chunk-0-part-1.txt"] := by
  decide

/-- C4 (amended): byte mode, threshold 20, a single 25-byte file is
force-split into exactly 2 parts, written to `chunk-0-part-0.txt` and
`chunk-1-part-1.txt` (the chunk index advances with each part), holding
20 and 5 content bytes respectively — each at most 20. -/
theorem C4_amended_part_names :
    write_chunks [⟨strBytes "f.txt", strBytes "0123456789012345678901234", 0⟩]
      ⟨[], [], [], some 20, false, false⟩ 100 =
      some [Out.part 0 0 (strBytes "f.txt") (strBytes "01234567890123456789"),
            Out.part 1 1 (strBytes "f.txt") (strBytes "01234")] ∧
    (write_chunks [⟨strBytes "f.txt", strBytes "0123456789012345678901234", 0⟩]
      ⟨[], [], [], some 20, false, false⟩ 100).map (List.map chunkFileName) =
      some ["chunk-0-part-0.txt", "chunk-1-part-1.txt"] ∧
    (strBytes "01234567890123456789").length ≤ 20 ∧
    (strBytes "01234").length ≤ 20 := by
  refine ⟨by decide, by decide, by decide, by decide⟩

/-- C9: for a history of exactly three files with strictly increasing
timestamps (oldest A, then B, newest C) and maximum boost 50, the boosts
are A=0, B=25, C=50; and for a history with 0 or 1 entries every boost
(looked up with the `unwrap_or(0)` default used by `serialize_repo`)
is 0. -/
theorem C9_recentness_boost :
    (∀ (A B C : Bytes) (tA tB tC : Nat), tA < tB → tB < tC →
      compute_recentness_boost [(A, tA), (B, tB), (C, tC)] 50 =
        [(A, 0), (B, 25), (C, 50)]) ∧
    (∀ (ct : List (Bytes × Nat)), ct.length ≤ 1 → ∀ path : Bytes,
      (hmGet path (compute_recentness_boost ct 50)).getD 0 = 0) := by
  constructor
  · intro A B C tA tB tC h1 h2
    have hAB : timeLe (A, tA) (B, tB) := le_of_lt h1
    have hBC : timeLe (B, tB) (C, tC) := le_of_lt h2
    simp only [compute_recentness_boost, List.insertionSort, List.orderedInsert]
    rw [if_pos hBC]
    simp only [List.orderedInsert]
    rw [if_pos hAB]
    norm_num [rankMap, roundRatio]
  · intro ct h path
    match ct with
    | [] => simp [compute_recentness_boost, hmGet]
    | [(p, t)] =>
      by_cases hp : p = path <;>
        simp [compute_recentness_boost, List.insertionSort, List.orderedInsert, hmGet, hp]
    | (p1, t1) :: (p2, t2) :: rest => simp at h

/-- Witness for C9 at a concrete three-file history. -/
theorem C9_recentness_boost_witness :
    compute_recentness_boost [([65], 10), ([66], 20), ([67], 30)] 50 =
      [([65], 0), ([66], 25), ([67], 50)] :=
  C9_recentness_boost.1 [65] [66] [67] 10 20 30 (by decide) (by decide)

/-- C10: the claim says the comparison is case-insensitive on both sides;
in the code only the file extension is lowercased, the user entry is
compared verbatim, so the user entry "RS" fails to classify a file with
extension "rs" as binary although the claimed criterion does. -/
theorem C10_counterexample :
    binaryByExtension [] [strBytes "RS"] (some (strBytes "rs")) = false ∧
    binaryByExtensionSpec [] [strBytes "RS"] (some (strBytes "rs")) = true := by
  constructor
  · decide
  · decide

/-- C10 (amended): the fast path classifies a file as binary exactly when
its lowercased extension is in the built-in set, or equals some
user-supplied entry stripped of leading dots; the file extension side is
case-insensitive (a lowercase user entry matches an extension of any
case), but the user entry itself is compared case-sensitively. -/
theorem C10_amended_fast_path :
    (∀ (builtin user : List Bytes) (ext : Bytes),
      binaryByExtension builtin user (some ext) = true ↔
        (toLowerAscii ext ∈ builtin ∨ ∃ u ∈ user, trimStartDots u = toLowerAscii ext)) ∧
    (∀ (builtin : List Bytes) (u ext : Bytes), trimStartDots u = toLowerAscii ext →
      binaryByExtension builtin [u] (some ext) = true) := by
  constructor
  · intro builtin user ext
    simp [binaryByExtension, List.any_eq_true]
  · intro builtin u ext h
    simp [binaryByExtension, List.any_eq_true, h]

/-- Witness for C10 (amended): the lowercase user entry "rs" classifies a
file with uppercase extension "RS" as binary. -/
theorem C10_amended_fast_path_witness :
    binaryByExtension [] [strBytes "rs"] (some (strBytes "RS")) = true :=
  C10_amended_fast_path.2 [] (strBytes "rs") (strBytes "RS") (by decide)

/-- The forced-split loop of byte mode never terminates when the chunk
size is 0 and the file is non-empty: `end = min(start + 0, len) = start`,
so `start` never advances. -/
lemma splitLoopBytes_zero_size (path content : Bytes) :
    ∀ (fuel chunk_idx partNo start : Nat), start < content.length →
      splitLoopBytes 0 path content fuel chunk_idx partNo start = none := by
  intro fuel
  induction fuel with
  | zero => intro _ _ _ _; rfl
  | succ fuel ih =>
    intro chunk_idx partNo start h
    have hmin : min (start + 0) content.length = start := by omega
    simp only [splitLoopBytes, if_pos h, hmin, ih (chunk_idx + 1) (partNo + 1) start h]

/-- With chunk size 0 and a non-empty first file, the `write_chunks` loop
body never returns, whatever the fuel. -/
lemma writeLoop_zero_hangs (path content : Bytes) (prio : Int) (rest : List Entry)
    (h : 0 < content.length) :
    ∀ fuel, writeLoop 0 false fuel (⟨path, content, prio⟩ :: rest) ⟨0, [], 0⟩ = none := by
  intro fuel
  have hsplit := splitLoopBytes_zero_size path content fuel 0 0 0 h
  rw [writeLoop]
  simp only [Bool.false_eq_true, if_false, ge_iff_le, Nat.zero_le, if_true, flushChunk,
    List.isEmpty_nil, hsplit]

/-- C7: with `max_size = 0`, validation does collect the
`max_size`/"Max size cannot be 0" diagnostic, but the run does not
complete on a tree with a non-empty text file: the forced-split loop of
`write_chunks` never terminates (no fuel bound suffices), contradicting
the claim that `serialize_repo` terminates and returns success. -/
theorem C7_zero_threshold_diagnostic_but_hangs :
    (ConfigError.mk "max_size" "Max size cannot be 0") ∈
      validate_config (fun _ => none) ⟨[], [], [], some 0, false, false⟩ ∧
    ∀ fuel : Nat,
      write_chunks [⟨strBytes "a.txt", strBytes "x", 0⟩]
        ⟨[], [], [], some 0, false, false⟩ fuel = none := by
  constructor
  · decide
  · intro fuel
    exact writeLoop_zero_hangs (strBytes "a.txt") (strBytes "x") 0 [] (by decide) fuel

/-- `List.max?` on integer lists is invariant under permutation. -/
lemma intMaxQ_perm : ∀ {l1 l2 : List Int}, l1.Perm l2 → l1.max? = l2.max? := by
  intro l1 l2 h
  induction h with
  | nil => rfl
  | cons x _ ih => rw [List.max?_cons, List.max?_cons, ih]
  | swap x y l =>
    rcases hm : l.max? with _ | m
    · simp only [List.max?_cons, hm, Option.elim]
      rw [max_comm]
    · simp only [List.max?_cons, hm, Option.elim]
      rw [max_left_comm]
  | trans _ _ ih1 ih2 => rw [ih1, ih2]

/-- A non-empty integer list has a maximum that belongs to it and bounds
every element. -/
lemma intMaxQ_spec : ∀ l : List Int,
    l = [] ∨ (∃ m, l.max? = some m ∧ m ∈ l ∧ ∀ s ∈ l, s ≤ m) := by
  intro l
  induction l with
  | nil => exact Or.inl rfl
  | cons a xs ih =>
    right
    rcases ih with h | ⟨m, hm, hmem, hub⟩
    · subst h
      exact ⟨a, by simp [List.max?_cons], by simp, by simp⟩
    · refine ⟨max a m, ?_, ?_, ?_⟩
      · rw [List.max?_cons, hm]; rfl
      · rcases le_total a m with h | h
        · rw [max_eq_right h]
          exact List.mem_cons_of_mem a hmem
        · rw [max_eq_left h]
          exact List.mem_cons_self a xs
      · intro s hs
        rcases List.mem_cons.mp hs with rfl | h
        · exact le_max_left s m
        · exact le_trans (hub s h) (le_max_right a m)

/-- C8: `get_file_priority` is invariant under permuting the rule list;
when no rule matches it returns 0, and otherwise it returns a matching
rule's score that is the maximum of all matching scores (so neither the
sum nor the first match); on the spec example, both orders of the rules
`(".*\.rs$", 10)` and `("^src/", 5)` score `src/lib.rs` as 10. -/
theorem C8_priority_is_max :
    (∀ compileRe (path : Bytes) (rules rules2 : List PriorityRule), rules.Perm rules2 →
      get_file_priority compileRe path rules = get_file_priority compileRe path rules2) ∧
    (∀ compileRe (path : Bytes) (rules : List PriorityRule),
      (matchedScores compileRe path rules = [] →
        get_file_priority compileRe path rules = 0) ∧
      (matchedScores compileRe path rules ≠ [] →
        get_file_priority compileRe path rules ∈ matchedScores compileRe path rules ∧
        ∀ s ∈ matchedScores compileRe path rules,
          s ≤ get_file_priority compileRe path rules)) ∧
    get_file_priority exampleCompile (strBytes "src/lib.rs")
      [⟨".*\\.rs$", 10⟩, ⟨"^src/", 5⟩] = 10 ∧
    get_file_priority exampleCompile (strBytes "src/lib.rs")
      [⟨"^src/", 5⟩, ⟨".*\\.rs$", 10⟩] = 10 := by
  refine ⟨?_, ?_, by decide, by decide⟩
  · intro compileRe path rules rules2 h
    unfold get_file_priority matchedScores
    rw [intMaxQ_perm (List.Perm.filterMap _ h)]
  · intro compileRe path rules
    rcases intMaxQ_spec (matchedScores compileRe path rules) with h | ⟨m, hm, hmem, hub⟩
    · exact ⟨fun _ => by simp [get_file_priority, h], fun hne => absurd h hne⟩
    · refine ⟨fun he => ?_, fun _ => ?_⟩
      · rw [he] at hm; simp at hm
      · simp only [get_file_priority, hm, Option.getD_some]
        exact ⟨hmem, hub⟩

/-- Witness for C8: permuting the two example rules leaves the priority of
`src/lib.rs` unchanged. -/
theorem C8_priority_is_max_witness :
    get_file_priority exampleCompile (strBytes "src/lib.rs")
      [⟨".*\\.rs$", 10⟩, ⟨"^src/", 5⟩] =
    get_file_priority exampleCompile (strBytes "src/lib.rs")
      [⟨"^src/", 5⟩, ⟨".*\\.rs$", 10⟩] :=
  C8_priority_is_max.1 exampleCompile (strBytes "src/lib.rs")
    [⟨".*\\.rs$", 10⟩, ⟨"^src/", 5⟩] [⟨"^src/", 5⟩, ⟨".*\\.rs$", 10⟩] (by decide)

/-- If the collection loop succeeds on a prefix and fails on the remaining
items, it fails on the whole walk with the same error (the `?` operator
aborts at the first failing entry). -/
lemma collectEntries_propagates (compileRe : String → Option (Bytes → Bool))
    (rules : List PriorityRule) (gt : Option (List (Bytes × Nat))) :
    ∀ (pre : List WalkItem) (l : List Entry) (rest : List WalkItem) (msg : String),
      collectEntries compileRe rules gt pre = Except.ok l →
      collectEntries compileRe rules gt rest = Except.error msg →
      collectEntries compileRe rules gt (pre ++ rest) = Except.error msg := by
  intro pre
  induction pre with
  | nil => intro l rest msg _ h2; exact h2
  | cons item pre ih =>
    intro l rest msg h1 h2
    match item with
    | WalkItem.err e => simp [collectEntries] at h1
    | WalkItem.dir p =>
      rw [List.cons_append]
      simp only [collectEntries] at h1 ⊢
      rcases hpre : collectEntries compileRe rules gt pre with e | es
      · rw [hpre] at h1; cases h1
      · exact ih es rest msg hpre h2
    | WalkItem.file path isText readC =>
      rw [List.cons_append]
      simp only [collectEntries] at h1 ⊢
      match isText with
      | Except.error e => cases h1
      | Except.ok false =>
        rcases hpre : collectEntries compileRe rules gt pre with e | es
        · rw [hpre] at h1; cases h1
        · exact ih es rest msg hpre h2
      | Except.ok true =>
        match readC with
        | Except.error e => cases h1
        | Except.ok content =>
          rcases hpre : collectEntries compileRe rules gt pre with e | es
          · rw [hpre] at h1; cases h1
          · rw [ih es rest msg hpre h2]

/-- C6: the claim says per-entry traversal and per-file read errors are
skipped and never surface; in the code they pass through the `?` operator,
so a single failing walk entry makes `serialize_repo` return that error. -/
theorem C6_counterexample :
    serialize_repo (fun _ => none) ⟨[], [], [], some 100, false, false⟩ none
      [WalkItem.err "permission denied"] 100 =
      Except.error "permission denied" := by
  decide

/-- C6 (amended): a per-entry traversal error, an `is_text_file` failure,
or a per-file read failure is propagated: the first such error aborts the
collection loop and `serialize_repo` returns it (it does not skip the
entry and continue). -/
theorem C6_amended_errors_propagate :
    ∀ (compileRe : String → Option (Bytes → Bool)) (config : YekConfig)
      (gt : Option (List (Bytes × Nat))) (fuel : Nat) (pre post : List WalkItem)
      (l : List Entry) (msg : String),
      collectEntries compileRe config.priority_rules gt pre = Except.ok l →
      serialize_repo compileRe config gt (pre ++ WalkItem.err msg :: post) fuel =
          Except.error msg ∧
      (∀ path readC,
        serialize_repo compileRe config gt
          (pre ++ WalkItem.file path (Except.error msg) readC :: post) fuel =
          Except.error msg) ∧
      (∀ path,
        serialize_repo compileRe config gt
          (pre ++ WalkItem.file path (Except.ok true) (Except.error msg) :: post) fuel =
          Except.error msg) := by
  intro compileRe config gt fuel pre post l msg h1
  refine ⟨?_, ?_, ?_⟩
  · rw [serialize_repo, collectEntries_propagates compileRe config.priority_rules gt
      pre l _ msg h1 (by simp [collectEntries])]
  · intro path readC
    rw [serialize_repo, collectEntries_propagates compileRe config.priority_rules gt
      pre l _ msg h1 (by simp [collectEntries])]
  · intro path
    rw [serialize_repo, collectEntries_propagates compileRe config.priority_rules gt
      pre l _ msg h1 (by simp [collectEntries])]

/-- Witness for C6 (amended): after one successfully collected file, a
traversal error aborts the run with that error. -/
theorem C6_amended_errors_propagate_witness :
    serialize_repo (fun _ => none) ⟨[], [], [], some 100, false, false⟩ none
      ([WalkItem.file [97] (Except.ok true) (Except.ok [120])] ++
        WalkItem.err "walk failed" :: []) 100 = Except.error "walk failed" :=
  (C6_amended_errors_propagate (fun _ => none) ⟨[], [], [], some 100, false, false⟩
    none 100 [WalkItem.file [97] (Except.ok true) (Except.ok [120])] []
    [⟨[97], [120], 0⟩] "walk failed" (by decide)).1

/-- The size measure of a file content in the configured mode: byte length,
or whitespace-token count (`file_len` / `file_tokens` in the source). -/
def entrySize (token_mode : Bool) (content : Bytes) : Nat :=
  if token_mode then (splitWS content).length else content.length

/-- The accounted size a buffered file adds to `used_size`:
its measure plus the `10 + rel_path.len()` overhead (`add_size`). -/
def fragAdd (token_mode : Bool) (f : Frag) : Nat :=
  entrySize token_mode f.content + (10 + f.path.length)

/-- Accounted aggregate size of a buffered chunk: the sum of `add_size`
over its files (the value `used_size` tracks). -/
def chunkAgg (token_mode : Bool) (frags : List Frag) : Nat :=
  (frags.map (fragAdd token_mode)).sum

/-- The amended C2 invariant for one emitted output: a buffered chunk is
non-empty, holds only files whose own measure is strictly below the
threshold, and if it holds two or more files its aggregate accounted size
is at most the threshold; a forced part is a slice of exactly one entry
whose own measure is at least the threshold, with no other file content. -/
def chunkOutOk (chunk_size : Nat) (tm : Bool) (entries : List Entry) : Out → Prop
  | Out.chunk _ frags =>
      frags ≠ [] ∧
      (∀ f ∈ frags, entrySize tm f.content < chunk_size) ∧
      (2 ≤ frags.length → chunkAgg tm frags ≤ chunk_size)
  | Out.part _ _ path content =>
      ∃ e ∈ entries, e.path = path ∧ chunk_size ≤ entrySize tm e.content ∧
        ∃ s, s < entrySize tm e.content ∧
          content = (if tm then joinSpace (((splitWS e.content).drop s).take chunk_size)
                     else utf8Lossy ((e.content.drop s).take chunk_size))

/-- Taking `min n (length l)` elements is the same as taking `n`. -/
lemma take_min_length {α : Type} (l : List α) (n : Nat) :
    l.take (min n l.length) = l.take n := by
  rcases le_total n l.length with h | h
  · rw [Nat.min_eq_left h]
  · rw [Nat.min_eq_right h, List.take_length, List.take_of_length_le h]

/-- The forced-split slice `[start..min (start+cs) len]` is just
`take cs` of the tail from `start`. -/
lemma slice_take {α : Type} (l : List α) (cs start : Nat) :
    (l.drop start).take (min (start + cs) l.length - start) =
      (l.drop start).take cs := by
  have h1 : min (start + cs) l.length - start =
      min cs (l.length - start) := by omega
  rw [h1, ← List.length_drop start l, take_min_length]

/-- Every output of the byte-mode forced-split loop is a part of the file
being split, holding the lossy decoding of a `chunk_size`-byte slice. -/
lemma splitLoopBytes_parts (cs : Nat) (path content : Bytes) :
    ∀ (fuel idx pn start : Nat) (outs : List Out) (idx2 : Nat),
      splitLoopBytes cs path content fuel idx pn start = some (outs, idx2) →
      ∀ o ∈ outs, ∃ i p s, s < content.length ∧
        o = Out.part i p path (utf8Lossy ((content.drop s).take cs)) := by
  intro fuel
  induction fuel with
  | zero => intro idx pn start outs idx2 h; cases h
  | succ fuel ih =>
    intro idx pn start outs idx2 h o ho
    rw [splitLoopBytes] at h
    by_cases hlt : start < content.length
    · rw [if_pos hlt] at h
      rcases hsp : splitLoopBytes cs path content fuel (idx + 1) (pn + 1)
          (min (start + cs) content.length) with _ | ⟨outs1, idxr⟩
      · simp only [hsp] at h
        cases h
      · simp only [hsp, Option.some.injEq, Prod.mk.injEq] at h
        obtain ⟨h1, h2⟩ := h
        subst h1
        rcases List.mem_cons.mp ho with rfl | hmem
        · exact ⟨idx, pn, start, hlt, by rw [slice_take]⟩
        · exact ih (idx + 1) (pn + 1) (min (start + cs) content.length) outs1 idxr hsp o hmem
    · rw [if_neg hlt] at h
      injection h with h
      injection h with h1 h2
      subst h1
      cases ho

/-- Every output of the token-mode forced-split loop is a part of the
token list being split, holding a space-joined `chunk_size`-token slice. -/
lemma splitLoopTokens_parts (cs : Nat) (path : Bytes) (tokens : List Bytes) :
    ∀ (fuel idx pn start : Nat) (outs : List Out) (idx2 : Nat),
      splitLoopTokens cs path tokens fuel idx pn start = some (outs, idx2) →
      ∀ o ∈ outs, ∃ i p s, s < tokens.length ∧
        o = Out.part i p path (joinSpace ((tokens.drop s).take cs)) := by
  intro fuel
  induction fuel with
  | zero => intro idx pn start outs idx2 h; cases h
  | succ fuel ih =>
    intro idx pn start outs idx2 h o ho
    rw [splitLoopTokens] at h
    by_cases hlt : start < tokens.length
    · rw [if_pos hlt] at h
      rcases hsp : splitLoopTokens cs path tokens fuel (idx + 1) (pn + 1)
          (min (start + cs) tokens.length) with _ | ⟨outs1, idxr⟩
      · simp only [hsp] at h
        cases h
      · simp only [hsp, Option.some.injEq, Prod.mk.injEq] at h
        obtain ⟨h1, h2⟩ := h
        subst h1
        rcases List.mem_cons.mp ho with rfl | hmem
        · exact ⟨idx, pn, start, hlt, by rw [slice_take]⟩
        · exact ih (idx + 1) (pn + 1) (min (start + cs) tokens.length) outs1 idxr hsp o hmem
    · rw [if_neg hlt] at h
      injection h with h
      injection h with h1 h2
      subst h1
      cases ho

/-- `chunkOutOk` only asks that parts come from some listed entry, so it
is preserved when the entry list grows. -/
lemma chunkOutOk_mono (cs : Nat) (tm : Bool) (e : Entry) (entries : List Entry) :
    ∀ o, chunkOutOk cs tm entries o → chunkOutOk cs tm (e :: entries) o := by
  intro o h
  match o with
  | Out.chunk i frags => exact h
  | Out.part i p path content =>
    obtain ⟨e1, he1, hrest⟩ := h
    exact ⟨e1, List.mem_cons_of_mem e he1, hrest⟩

/-- Loop invariant of `write_chunks`: `used_size` is the accounted
aggregate of the buffer, every buffered file is strictly below the
threshold, and a buffer of two or more files is within the threshold. -/
def stInv (cs : Nat) (tm : Bool) (st : WState) : Prop :=
  st.used_size = chunkAgg tm st.buffer ∧
  (∀ f ∈ st.buffer, entrySize tm f.content < cs) ∧
  (2 ≤ st.buffer.length → st.used_size ≤ cs)

/-- Appending a file to the buffer adds its accounted size. -/
lemma chunkAgg_append (tm : Bool) (l : List Frag) (f : Frag) :
    chunkAgg tm (l ++ [f]) = chunkAgg tm l + fragAdd tm f := by
  simp [chunkAgg]

/-- A buffer flushed under the invariant yields a compliant chunk. -/
lemma chunk_out_ok_of_inv (cs : Nat) (tm : Bool) (entries : List Entry)
    (st : WState) (hinv : stInv cs tm st) (hb : st.buffer.isEmpty = false) :
    chunkOutOk cs tm entries (Out.chunk st.chunk_idx st.buffer) := by
  refine ⟨?_, hinv.2.1, ?_⟩
  · intro hnil
    rw [hnil] at hb
    cases hb
  · intro h2
    have := hinv.2.2 h2
    rw [hinv.1] at this
    exact this

/-- Every output emitted by the `write_chunks` loop from an invariant
state satisfies the amended C2 bound. -/
theorem writeLoop_chunkOk (cs : Nat) (tm : Bool) (fuel : Nat) :
    ∀ (entries : List Entry) (st : WState) (outs : List Out),
      stInv cs tm st →
      writeLoop cs tm fuel entries st = some outs →
      ∀ o ∈ outs, chunkOutOk cs tm entries o := by
  intro entries
  induction entries with
  | nil =>
    intro st outs hinv h o ho
    rw [writeLoop] at h
    injection h with h
    subst h
    cases hb : st.buffer.isEmpty
    · simp only [hb, Bool.false_eq_true, if_false] at ho
      rw [List.mem_singleton] at ho
      subst ho
      exact chunk_out_ok_of_inv cs tm [] st hinv hb
    · simp only [hb, if_true] at ho
      cases ho
  | cons e rest ih =>
    intro st outs hinv h o ho
    rw [writeLoop] at h
    cases tm with
    | false =>
      simp only [Bool.false_eq_true, if_false] at h
      by_cases hsize : e.content.length ≥ cs
      · rw [if_pos hsize] at h
        cases hb : st.buffer.isEmpty with
        | false =>
          have hfl : flushChunk st =
              ([Out.chunk st.chunk_idx st.buffer],
                ⟨st.chunk_idx + 1, [], 0⟩) := by
            simp [flushChunk, hb]
          simp only [hfl] at h
          rcases hsp : splitLoopBytes cs e.path e.content fuel (st.chunk_idx + 1) 0 0 with
            _ | ⟨parts, idx⟩
          · simp only [hsp] at h
            exact Option.noConfusion h
          · simp only [hsp] at h
            rcases hrest : writeLoop cs false fuel rest ⟨idx, [], 0⟩ with _ | outs2
            · simp only [hrest] at h
              exact Option.noConfusion h
            · simp only [hrest, Option.some.injEq] at h
              subst h
              rcases List.mem_append.mp ho with ho1 | ho2
              · rcases List.mem_append.mp ho1 with hoA | hoB
                · rw [List.mem_singleton] at hoA
                  subst hoA
                  exact chunk_out_ok_of_inv cs false (e :: rest) st hinv hb
                · obtain ⟨i, p, s, hs, rfl⟩ :=
                    splitLoopBytes_parts cs e.path e.content fuel (st.chunk_idx + 1) 0 0
                      parts idx hsp o hoB
                  exact ⟨e, List.mem_cons_self e rest, rfl,
                    by simpa [entrySize] using hsize, s,
                    by simpa [entrySize] using hs, by simp [entrySize]⟩
              · have hinv2 : stInv cs false ⟨idx, [], 0⟩ := by
                  refine ⟨by simp [chunkAgg], by simp, ?_⟩
                  intro h2
                  simp at h2
                exact chunkOutOk_mono cs false e rest o
                  (ih ⟨idx, [], 0⟩ outs2 hinv2 hrest o ho2)
        | true =>
          have hbuf : st.buffer = [] := by
            cases hbl : st.buffer
            · rfl
            · rw [hbl] at hb
              cases hb
          have hfl : flushChunk st = ([], st) := by simp [flushChunk, hb]
          simp only [hfl] at h
          rcases hsp : splitLoopBytes cs e.path e.content fuel st.chunk_idx 0 0 with
            _ | ⟨parts, idx⟩
          · simp only [hsp] at h
            exact Option.noConfusion h
          · simp only [hsp] at h
            rcases hrest : writeLoop cs false fuel rest
                ⟨idx, st.buffer, st.used_size⟩ with _ | outs2
            · simp only [hrest] at h
              exact Option.noConfusion h
            · simp only [hrest, Option.some.injEq] at h
              subst h
              rcases List.mem_append.mp ho with ho1 | ho2
              · rcases List.mem_append.mp ho1 with hoA | hoB
                · cases hoA
                · obtain ⟨i, p, s, hs, rfl⟩ :=
                    splitLoopBytes_parts cs e.path e.content fuel st.chunk_idx 0 0
                      parts idx hsp o hoB
                  exact ⟨e, List.mem_cons_self e rest, rfl,
                    by simpa [entrySize] using hsize, s,
                    by simpa [entrySize] using hs, by simp [entrySize]⟩
              · have hinv2 : stInv cs false ⟨idx, st.buffer, st.used_size⟩ :=
                  ⟨hinv.1, hinv.2.1, hinv.2.2⟩
                exact chunkOutOk_mono cs false e rest o
                  (ih ⟨idx, st.buffer, st.used_size⟩ outs2 hinv2 hrest o ho2)
      · rw [if_neg hsize] at h
        have hlt : entrySize false e.content < cs := by
          simp only [entrySize, Bool.false_eq_true, if_false]
          omega
        by_cases hov : st.used_size + (e.content.length + (10 + e.path.length)) > cs
        · cases hb : st.buffer.isEmpty with
          | false =>
            have hfl : flushChunk st =
                ([Out.chunk st.chunk_idx st.buffer],
                  ⟨st.chunk_idx + 1, [], 0⟩) := by
              simp [flushChunk, hb]
            have hcond : (decide (st.used_size + (e.content.length + (10 + e.path.length)) > cs)
                && !st.buffer.isEmpty) = true := by simp [hb, hov]
            simp only [hcond, if_true, hfl] at h
            rcases hrest : writeLoop cs false fuel rest
                ⟨st.chunk_idx + 1,
                  [] ++ [⟨st.chunk_idx + 1, e.path, e.content⟩],
                  0 + (e.content.length + (10 + e.path.length))⟩ with _ | outs2
            · simp only [hrest] at h
              exact Option.noConfusion h
            · simp only [hrest, Option.some.injEq] at h
              subst h
              rcases List.mem_append.mp ho with ho1 | ho2
              · rw [List.mem_singleton] at ho1
                subst ho1
                exact chunk_out_ok_of_inv cs false (e :: rest) st hinv hb
              · have hinv2 : stInv cs false
                    ⟨st.chunk_idx + 1,
                      [] ++ [⟨st.chunk_idx + 1, e.path, e.content⟩],
                      0 + (e.content.length + (10 + e.path.length))⟩ := by
                  refine ⟨by simp [chunkAgg, fragAdd, entrySize], ?_, ?_⟩
                  · intro f hf
                    simp at hf
                    subst hf
                    exact hlt
                  · intro h2
                    simp at h2
                exact chunkOutOk_mono cs false e rest o
                  (ih _ outs2 hinv2 hrest o ho2)
          | true =>
            have hbuf : st.buffer = [] := by
              cases hbl : st.buffer
              · rfl
              · rw [hbl] at hb
                cases hb
            have hcond : (decide (st.used_size + (e.content.length + (10 + e.path.length)) > cs)
                && !st.buffer.isEmpty) = false := by simp [hb]
            simp only [hcond, Bool.false_eq_true, if_false] at h
            rcases hrest : writeLoop cs false fuel rest
                ⟨st.chunk_idx, st.buffer ++ [⟨st.chunk_idx, e.path, e.content⟩],
                  st.used_size + (e.content.length + (10 + e.path.length))⟩ with _ | outs2
            · simp only [hrest] at h
              exact Option.noConfusion h
            · simp only [hrest, Option.some.injEq] at h
              subst h
              rcases List.mem_append.mp ho with ho1 | ho2
              · cases ho1
              · have hinv2 : stInv cs false
                    ⟨st.chunk_idx, st.buffer ++ [⟨st.chunk_idx, e.path, e.content⟩],
                      st.used_size + (e.content.length + (10 + e.path.length))⟩ := by
                  refine ⟨?_, ?_, ?_⟩
                  · rw [chunkAgg_append, ← hinv.1]
                    simp [fragAdd, entrySize]
                  · intro f hf
                    rcases List.mem_append.mp hf with hf1 | hf2
                    · exact hinv.2.1 f hf1
                    · rw [List.mem_singleton] at hf2
                      subst hf2
                      exact hlt
                  · intro h2
                    rw [hbuf] at h2
                    simp at h2
                exact chunkOutOk_mono cs false e rest o
                  (ih _ outs2 hinv2 hrest o ho2)
        · have hcond : (decide (st.used_size + (e.content.length + (10 + e.path.length)) > cs)
              && !st.buffer.isEmpty) = false := by simp [hov]
          simp only [hcond, Bool.false_eq_true, if_false] at h
          rcases hrest : writeLoop cs false fuel rest
              ⟨st.chunk_idx, st.buffer ++ [⟨st.chunk_idx, e.path, e.content⟩],
                st.used_size + (e.content.length + (10 + e.path.length))⟩ with _ | outs2
          · simp only [hrest] at h
            exact Option.noConfusion h
          · simp only [hrest, Option.some.injEq] at h
            subst h
            rcases List.mem_append.mp ho with ho1 | ho2
            · cases ho1
            · have hinv2 : stInv cs false
                  ⟨st.chunk_idx, st.buffer ++ [⟨st.chunk_idx, e.path, e.content⟩],
                    st.used_size + (e.content.length + (10 + e.path.length))⟩ := by
                refine ⟨?_, ?_, ?_⟩
                · rw [chunkAgg_append, ← hinv.1]
                  simp [fragAdd, entrySize]
                · intro f hf
                  rcases List.mem_append.mp hf with hf1 | hf2
                  · exact hinv.2.1 f hf1
                  · rw [List.mem_singleton] at hf2
                    subst hf2
                    exact hlt
                · intro _
                  show st.used_size + (e.content.length + (10 + e.path.length)) ≤ cs
                  omega
              exact chunkOutOk_mono cs false e rest o
                (ih _ outs2 hinv2 hrest o ho2)
    | true =>
      simp only [if_true] at h
      by_cases hsize : (splitWS e.content).length ≥ cs
      · rw [if_pos hsize] at h
        cases hb : st.buffer.isEmpty with
        | false =>
          have hfl : flushChunk st =
              ([Out.chunk st.chunk_idx st.buffer],
                ⟨st.chunk_idx + 1, [], 0⟩) := by
            simp [flushChunk, hb]
          simp only [hfl] at h
          rcases hsp : splitLoopTokens cs e.path (splitWS e.content) fuel
              (st.chunk_idx + 1) 0 0 with _ | ⟨parts, idx⟩
          · simp only [hsp] at h
            exact Option.noConfusion h
          · simp only [hsp] at h
            rcases hrest : writeLoop cs true fuel rest ⟨idx, [], 0⟩ with _ | outs2
            · simp only [hrest] at h
              exact Option.noConfusion h
            · simp only [hrest, Option.some.injEq] at h
              subst h
              rcases List.mem_append.mp ho with ho1 | ho2
              · rcases List.mem_append.mp ho1 with hoA | hoB
                · rw [List.mem_singleton] at hoA
                  subst hoA
                  exact chunk_out_ok_of_inv cs true (e :: rest) st hinv hb
                · obtain ⟨i, p, s, hs, rfl⟩ :=
                    splitLoopTokens_parts cs e.path (splitWS e.content) fuel
                      (st.chunk_idx + 1) 0 0 parts idx hsp o hoB
                  exact ⟨e, List.mem_cons_self e rest, rfl,
                    by simpa [entrySize] using hsize, s,
                    by simpa [entrySize] using hs, by simp [entrySize]⟩
              · have hinv2 : stInv cs true ⟨idx, [], 0⟩ := by
                  refine ⟨by simp [chunkAgg], by simp, ?_⟩
                  intro h2
                  simp at h2
                exact chunkOutOk_mono cs true e rest o
                  (ih ⟨idx, [], 0⟩ outs2 hinv2 hrest o ho2)
        | true =>
          have hbuf : st.buffer = [] := by
            cases hbl : st.buffer
            · rfl
            · rw [hbl] at hb
              cases hb
          have hfl : flushChunk st = ([], st) := by simp [flushChunk, hb]
          simp only [hfl] at h
          rcases hsp : splitLoopTokens cs e.path (splitWS e.content) fuel
              st.chunk_idx 0 0 with _ | ⟨parts, idx⟩
          · simp only [hsp] at h
            exact Option.noConfusion h
          · simp only [hsp] at h
            rcases hrest : writeLoop cs true fuel rest
                ⟨idx, st.buffer, st.used_size⟩ with _ | outs2
            · simp only [hrest] at h
              exact Option.noConfusion h
            · simp only [hrest, Option.some.injEq] at h
              subst h
              rcases List.mem_append.mp ho with ho1 | ho2
              · rcases List.mem_append.mp ho1 with hoA | hoB
                · cases hoA
                · obtain ⟨i, p, s, hs, rfl⟩ :=
                    splitLoopTokens_parts cs e.path (splitWS e.content) fuel
                      st.chunk_idx 0 0 parts idx hsp o hoB
                  exact ⟨e, List.mem_cons_self e rest, rfl,
                    by simpa [entrySize] using hsize, s,
                    by simpa [entrySize] using hs, by simp [entrySize]⟩
              · have hinv2 : stInv cs true ⟨idx, st.buffer, st.used_size⟩ :=
                  ⟨hinv.1, hinv.2.1, hinv.2.2⟩
                exact chunkOutOk_mono cs true e rest o
                  (ih ⟨idx, st.buffer, st.used_size⟩ outs2 hinv2 hrest o ho2)
      · rw [if_neg hsize] at h
        have hlt : entrySize true e.content < cs := by
          simp only [entrySize, if_true]
          omega
        by_cases hov : st.used_size + ((splitWS e.content).length + (10 + e.path.length)) > cs
        · cases hb : st.buffer.isEmpty with
          | false =>
            have hfl : flushChunk st =
                ([Out.chunk st.chunk_idx st.buffer],
                  ⟨st.chunk_idx + 1, [], 0⟩) := by
              simp [flushChunk, hb]
            have hcond : (decide (st.used_size +
                  ((splitWS e.content).length + (10 + e.path.length)) > cs)
                && !st.buffer.isEmpty) = true := by simp [hb, hov]
            simp only [hcond, if_true, hfl] at h
            rcases hrest : writeLoop cs true fuel rest
                ⟨st.chunk_idx + 1,
                  [] ++ [⟨st.chunk_idx + 1, e.path, e.content⟩],
                  0 + ((splitWS e.content).length + (10 + e.path.length))⟩ with _ | outs2
            · simp only [hrest] at h
              exact Option.noConfusion h
            · simp only [hrest, Option.some.injEq] at h
              subst h
              rcases List.mem_append.mp ho with ho1 | ho2
              · rw [List.mem_singleton] at ho1
                subst ho1
                exact chunk_out_ok_of_inv cs true (e :: rest) st hinv hb
              · have hinv2 : stInv cs true
                    ⟨st.chunk_idx + 1,
                      [] ++ [⟨st.chunk_idx + 1, e.path, e.content⟩],
                      0 + ((splitWS e.content).length + (10 + e.path.length))⟩ := by
                  refine ⟨by simp [chunkAgg, fragAdd, entrySize], ?_, ?_⟩
                  · intro f hf
                    simp at hf
                    subst hf
                    exact hlt
                  · intro h2
                    simp at h2
                exact chunkOutOk_mono cs true e rest o
                  (ih _ outs2 hinv2 hrest o ho2)
          | true =>
            have hbuf : st.buffer = [] := by
              cases hbl : st.buffer
              · rfl
              · rw [hbl] at hb
                cases hb
            have hcond : (decide (st.used_size +
                  ((splitWS e.content).length + (10 + e.path.length)) > cs)
                && !st.buffer.isEmpty) = false := by simp [hb]
            simp only [hcond, Bool.false_eq_true, if_false] at h
            rcases hrest : writeLoop cs true fuel rest
                ⟨st.chunk_idx, st.buffer ++ [⟨st.chunk_idx, e.path, e.content⟩],
                  st.used_size + ((splitWS e.content).length + (10 + e.path.length))⟩ with
              _ | outs2
            · simp only [hrest] at h
              exact Option.noConfusion h
            · simp only [hrest, Option.some.injEq] at h
              subst h
              rcases List.mem_append.mp ho with ho1 | ho2
              · cases ho1
              · have hinv2 : stInv cs true
                    ⟨st.chunk_idx, st.buffer ++ [⟨st.chunk_idx, e.path, e.content⟩],
                      st.used_size + ((splitWS e.content).length + (10 + e.path.length))⟩ := by
                  refine ⟨?_, ?_, ?_⟩
                  · rw [chunkAgg_append, ← hinv.1]
                    simp [fragAdd, entrySize]
                  · intro f hf
                    rcases List.mem_append.mp hf with hf1 | hf2
                    · exact hinv.2.1 f hf1
                    · rw [List.mem_singleton] at hf2
                      subst hf2
                      exact hlt
                  · intro h2
                    rw [hbuf] at h2
                    simp at h2
                exact chunkOutOk_mono cs true e rest o
                  (ih _ outs2 hinv2 hrest o ho2)
        · have hcond : (decide (st.used_size +
              ((splitWS e.content).length + (10 + e.path.length)) > cs)
              && !st.buffer.isEmpty) = false := by simp [hov]
          simp only [hcond, Bool.false_eq_true, if_false] at h
          rcases hrest : writeLoop cs true fuel rest
              ⟨st.chunk_idx, st.buffer ++ [⟨st.chunk_idx, e.path, e.content⟩],
                st.used_size + ((splitWS e.content).length + (10 + e.path.length))⟩ with
            _ | outs2
          · simp only [hrest] at h
            exact Option.noConfusion h
          · simp only [hrest, Option.some.injEq] at h
            subst h
            rcases List.mem_append.mp ho with ho1 | ho2
            · cases ho1
            · have hinv2 : stInv cs true
                  ⟨st.chunk_idx, st.buffer ++ [⟨st.chunk_idx, e.path, e.content⟩],
                    st.used_size + ((splitWS e.content).length + (10 + e.path.length))⟩ := by
                refine ⟨?_, ?_, ?_⟩
                · rw [chunkAgg_append, ← hinv.1]
                  simp [fragAdd, entrySize]
                · intro f hf
                  rcases List.mem_append.mp hf with hf1 | hf2
                  · exact hinv.2.1 f hf1
                  · rw [List.mem_singleton] at hf2
                    subst hf2
                    exact hlt
                · intro _
                  show st.used_size + ((splitWS e.content).length + (10 + e.path.length)) ≤ cs
                  omega
              exact chunkOutOk_mono cs true e rest o
                (ih _ outs2 hinv2 hrest o ho2)

/-- C2: the claim allows a chunk to reach the threshold only when a
single file alone meets it; but a 15-byte file with a 10-byte path under
threshold 20 is buffered (15 < 20, so it is not force-split) into a chunk
whose accounted aggregate size is 15 + 10 + 10 = 35 > 20 - the per-file
header overhead pushes a single-file chunk beyond the threshold. -/
theorem C2_counterexample :
    write_chunks [⟨strBytes "0123456789", strBytes "012345678901234", 0⟩]
      ⟨[], [], [], some 20, false, false⟩ 100 =
      some [Out.chunk 0 [⟨0, strBytes "0123456789", strBytes "012345678901234"⟩]] ∧
    entrySize false (strBytes "012345678901234") < 20 ∧
    chunkAgg false [⟨0, strBytes "0123456789", strBytes "012345678901234"⟩] = 35 := by
  refine ⟨by decide, by decide, by decide⟩

/-- C2 (amended): every chunk emitted by `write_chunks` holding two or
more files has aggregate accounted size (content measure plus the
10 + path-length overhead per file) at most the threshold; every buffered
file is itself strictly below the threshold, so a single-file chunk can
exceed the threshold only by that file overhead; and a file whose own
size/token count is at least the threshold is force-split into parts that
are slices of that file alone, with no other file content mixed in. -/
theorem C2_amended_chunk_bound :
    ∀ (entries : List Entry) (config : YekConfig) (fuel : Nat) (outs : List Out),
      write_chunks entries config fuel = some outs →
      ∀ o ∈ outs,
        chunkOutOk (config.max_size.getD DEFAULT_CHUNK_SIZE) config.token_mode entries o := by
  intro entries config fuel outs h
  exact writeLoop_chunkOk (config.max_size.getD DEFAULT_CHUNK_SIZE) config.token_mode
    fuel entries ⟨0, [], 0⟩ outs
    ⟨by simp [chunkAgg], by simp, by intro h2; simp at h2⟩ h

/-- Witness for C2 (amended) on a concrete one-file run. -/
theorem C2_amended_chunk_bound_witness :
    chunkOutOk 20 false [⟨strBytes "a.txt", strBytes "hello", 0⟩]
      (Out.chunk 0 [⟨0, strBytes "a.txt", strBytes "hello"⟩]) :=
  C2_amended_chunk_bound [⟨strBytes "a.txt", strBytes "hello", 0⟩]
    ⟨[], [], [], some 20, false, false⟩ 100
    [Out.chunk 0 [⟨0, strBytes "a.txt", strBytes "hello"⟩]] (by decide)
    (Out.chunk 0 [⟨0, strBytes "a.txt", strBytes "hello"⟩]) (by decide)

/-- The content bytes of an emitted output with its header scaffolding
(the `chunk <i>` / `>>>> <path>` lines and the trailing newline added per
file) stripped away. -/
def strippedOut : Out → Bytes
  | Out.chunk _ frags => (frags.map (fun f => f.content)).flatten
  | Out.part _ _ _ content => content

/-- All content bytes of a run, in emission order, headers stripped. -/
def strippedAll (outs : List Out) : Bytes := (outs.map strippedOut).flatten

/-- The chunk index an output is tagged with. -/
def outIdx : Out → Nat
  | Out.chunk i _ => i
  | Out.part i _ _ _ => i

/-- `from_utf8_lossy` is the identity on ASCII byte strings (fuelled
form). -/
lemma utf8LossyF_ascii : ∀ (fuel : Nat) (l : Bytes), l.length ≤ fuel →
    (∀ b ∈ l, b < 0x80) → utf8LossyF fuel l = l := by
  intro fuel
  induction fuel with
  | zero =>
    intro l hlen _
    cases l
    · rfl
    · simp at hlen
  | succ fuel ih =>
    intro l hlen hascii
    cases l with
    | nil => rfl
    | cons b rest =>
      have hb : b < 0x80 := hascii b (List.mem_cons_self b rest)
      simp only [utf8LossyF, if_pos hb,
        ih rest (by simp at hlen; omega)
          (fun c hc => hascii c (List.mem_cons_of_mem b hc))]

/-- `from_utf8_lossy` is the identity on ASCII byte strings. -/
lemma utf8Lossy_ascii (l : Bytes) (h : ∀ b ∈ l, b < 0x80) : utf8Lossy l = l :=
  utf8LossyF_ascii l.length l le_rfl h

/-- For an ASCII file, concatenating the stripped contents of the parts
emitted by the byte-mode forced-split loop recovers the remaining file
content from `start` on. -/
lemma splitLoopBytes_concat (cs : Nat) (path content : Bytes)
    (hascii : ∀ b ∈ content, b < 0x80) :
    ∀ (fuel idx pn start : Nat) (outs : List Out) (idx2 : Nat),
      splitLoopBytes cs path content fuel idx pn start = some (outs, idx2) →
      (outs.map strippedOut).flatten = content.drop start := by
  intro fuel
  induction fuel with
  | zero => intro idx pn start outs idx2 h; cases h
  | succ fuel ih =>
    intro idx pn start outs idx2 h
    rw [splitLoopBytes] at h
    by_cases hlt : start < content.length
    · rw [if_pos hlt] at h
      rcases hsp : splitLoopBytes cs path content fuel (idx + 1) (pn + 1)
          (min (start + cs) content.length) with _ | ⟨outs1, idxr⟩
      · simp only [hsp] at h
        cases h
      · simp only [hsp, Option.some.injEq, Prod.mk.injEq] at h
        obtain ⟨h1, _⟩ := h
        subst h1
        have hrec := ih (idx + 1) (pn + 1) (min (start + cs) content.length) outs1 idxr hsp
        simp only [List.map_cons, List.flatten_cons, hrec, strippedOut]
        have hslice : utf8Lossy
            ((content.drop start).take (min (start + cs) content.length - start)) =
            (content.drop start).take (min (start + cs) content.length - start) := by
          refine utf8Lossy_ascii _ (fun b hb => ?_)
          exact hascii b (List.mem_of_mem_drop (List.mem_of_mem_take hb))
        rw [hslice]
        have hdrop : content.drop (min (start + cs) content.length) =
            (content.drop start).drop (min (start + cs) content.length - start) := by
          rw [List.drop_drop]
          congr 1
          omega
        rw [hdrop, List.take_append_drop]
    · rw [if_neg hlt] at h
      injection h with h
      injection h with h1 _
      subst h1
      simp only [List.map_nil, List.flatten_nil]
      rw [List.drop_eq_nil_of_le (by omega)]

/-- The byte-mode forced-split loop tags its parts with consecutive chunk
indices starting at `idx` and returns the next free index. -/
lemma splitLoopBytes_idx (cs : Nat) (path content : Bytes) :
    ∀ (fuel idx pn start : Nat) (outs : List Out) (idx2 : Nat),
      splitLoopBytes cs path content fuel idx pn start = some (outs, idx2) →
      outs.map outIdx = List.range' idx outs.length ∧ idx2 = idx + outs.length := by
  intro fuel
  induction fuel with
  | zero => intro idx pn start outs idx2 h; cases h
  | succ fuel ih =>
    intro idx pn start outs idx2 h
    rw [splitLoopBytes] at h
    by_cases hlt : start < content.length
    · rw [if_pos hlt] at h
      rcases hsp : splitLoopBytes cs path content fuel (idx + 1) (pn + 1)
          (min (start + cs) content.length) with _ | ⟨outs1, idxr⟩
      · simp only [hsp] at h
        cases h
      · simp only [hsp, Option.some.injEq, Prod.mk.injEq] at h
        obtain ⟨h1, h2⟩ := h
        subst h1
        subst h2
        obtain ⟨hmap, hidx⟩ := ih (idx + 1) (pn + 1)
          (min (start + cs) content.length) outs1 idxr hsp
        constructor
        · simp only [List.map_cons, hmap, List.length_cons, outIdx]
          rw [List.range'_succ]
        · rw [hidx]
          simp only [List.length_cons]
          omega
    · rw [if_neg hlt] at h
      injection h with h
      injection h with h1 h2
      subst h1
      subst h2
      simp

/-- The token-mode forced-split loop tags its parts with consecutive
chunk indices starting at `idx` and returns the next free index. -/
lemma splitLoopTokens_idx (cs : Nat) (path : Bytes) (tokens : List Bytes) :
    ∀ (fuel idx pn start : Nat) (outs : List Out) (idx2 : Nat),
      splitLoopTokens cs path tokens fuel idx pn start = some (outs, idx2) →
      outs.map outIdx = List.range' idx outs.length ∧ idx2 = idx + outs.length := by
  intro fuel
  induction fuel with
  | zero => intro idx pn start outs idx2 h; cases h
  | succ fuel ih =>
    intro idx pn start outs idx2 h
    rw [splitLoopTokens] at h
    by_cases hlt : start < tokens.length
    · rw [if_pos hlt] at h
      rcases hsp : splitLoopTokens cs path tokens fuel (idx + 1) (pn + 1)
          (min (start + cs) tokens.length) with _ | ⟨outs1, idxr⟩
      · simp only [hsp] at h
        cases h
      · simp only [hsp, Option.some.injEq, Prod.mk.injEq] at h
        obtain ⟨h1, h2⟩ := h
        subst h1
        subst h2
        obtain ⟨hmap, hidx⟩ := ih (idx + 1) (pn + 1)
          (min (start + cs) tokens.length) outs1 idxr hsp
        constructor
        · simp only [List.map_cons, hmap, List.length_cons, outIdx]
          rw [List.range'_succ]
        · rw [hidx]
          simp only [List.length_cons]
          omega
    · rw [if_neg hlt] at h
      injection h with h
      injection h with h1 h2
      subst h1
      subst h2
      simp

/-- Concatenation of adjacent unit-step ranges. -/
lemma range'_append1 (s m n : Nat) :
    List.range' s m ++ List.range' (s + m) n = List.range' s (m + n) := by
  have h := List.range'_append s m n 1
  simp only [one_mul, Nat.mul_one] at h
  rw [Nat.add_comm n m] at h
  simpa using h

/-- A head index followed by two adjacent ranges is one range. -/
lemma range'_cons_append (s np n2 : Nat) :
    (s :: List.range' (s + 1) np) ++ List.range' (s + 1 + np) n2 =
      List.range' s (np + 1 + n2) := by
  have h1 : s :: List.range' (s + 1) np = List.range' s (np + 1) :=
    (List.range'_succ s np 1).symm
  rw [h1, show s + 1 + np = s + (np + 1) by omega, range'_append1]

/-- The chunk indices emitted by the `write_chunks` loop are exactly the
consecutive range starting at the current `chunk_idx`: emission order is
ascending index order and indices are contiguous. -/
lemma writeLoop_idx (cs : Nat) (tm : Bool) (fuel : Nat) :
    ∀ (entries : List Entry) (st : WState) (outs : List Out),
      writeLoop cs tm fuel entries st = some outs →
      outs.map outIdx = List.range' st.chunk_idx outs.length := by
  intro entries
  induction entries with
  | nil =>
    intro st outs h
    rw [writeLoop] at h
    injection h with h
    subst h
    cases hb : st.buffer.isEmpty
    · simp [hb, outIdx]
    · simp [hb]
  | cons e rest ih =>
    intro st outs h
    rw [writeLoop] at h
    cases tm with
    | false =>
      simp only [Bool.false_eq_true, if_false] at h
      by_cases hsize : e.content.length ≥ cs
      · rw [if_pos hsize] at h
        cases hb : st.buffer.isEmpty with
        | false =>
          have hfl : flushChunk st =
              ([Out.chunk st.chunk_idx st.buffer], ⟨st.chunk_idx + 1, [], 0⟩) := by
            simp [flushChunk, hb]
          simp only [hfl] at h
          rcases hsp : splitLoopBytes cs e.path e.content fuel (st.chunk_idx + 1) 0 0 with
            _ | ⟨parts, idx⟩
          · simp only [hsp] at h
            exact Option.noConfusion h
          · simp only [hsp] at h
            rcases hrest : writeLoop cs false fuel rest ⟨idx, [], 0⟩ with _ | outs2
            · simp only [hrest] at h
              exact Option.noConfusion h
            · simp only [hrest, Option.some.injEq] at h
              subst h
              obtain ⟨hmap, hidx⟩ := splitLoopBytes_idx cs e.path e.content fuel
                (st.chunk_idx + 1) 0 0 parts idx hsp
              have hmap2 := ih ⟨idx, [], 0⟩ outs2 hrest
              subst hidx
              simp only [List.singleton_append, List.map_cons, List.map_append, hmap, hmap2,
                outIdx, List.length_cons, List.length_append]
              rw [range'_cons_append]
        | true =>
          have hfl : flushChunk st = ([], st) := by simp [flushChunk, hb]
          simp only [hfl] at h
          rcases hsp : splitLoopBytes cs e.path e.content fuel st.chunk_idx 0 0 with
            _ | ⟨parts, idx⟩
          · simp only [hsp] at h
            exact Option.noConfusion h
          · simp only [hsp] at h
            rcases hrest : writeLoop cs false fuel rest
                ⟨idx, st.buffer, st.used_size⟩ with _ | outs2
            · simp only [hrest] at h
              exact Option.noConfusion h
            · simp only [hrest, Option.some.injEq] at h
              subst h
              obtain ⟨hmap, hidx⟩ := splitLoopBytes_idx cs e.path e.content fuel
                st.chunk_idx 0 0 parts idx hsp
              have hmap2 := ih ⟨idx, st.buffer, st.used_size⟩ outs2 hrest
              subst hidx
              simp only [List.nil_append, List.map_append, hmap, hmap2,
                List.length_append]
              rw [range'_append1]
      · rw [if_neg hsize] at h
        by_cases hov : st.used_size + (e.content.length + (10 + e.path.length)) > cs
        · cases hb : st.buffer.isEmpty with
          | false =>
            have hfl : flushChunk st =
                ([Out.chunk st.chunk_idx st.buffer], ⟨st.chunk_idx + 1, [], 0⟩) := by
              simp [flushChunk, hb]
            have hcond : (decide (st.used_size + (e.content.length + (10 + e.path.length)) > cs)
                && !st.buffer.isEmpty) = true := by simp [hb, hov]
            simp only [hcond, if_true, hfl] at h
            rcases hrest : writeLoop cs false fuel rest
                ⟨st.chunk_idx + 1,
                  [] ++ [⟨st.chunk_idx + 1, e.path, e.content⟩],
                  0 + (e.content.length + (10 + e.path.length))⟩ with _ | outs2
            · simp only [hrest] at h
              exact Option.noConfusion h
            · simp only [hrest, Option.some.injEq] at h
              subst h
              have hmap2 := ih _ outs2 hrest
              simp only [List.singleton_append, List.map_cons, hmap2, outIdx,
                List.length_cons]
              rw [List.range'_succ]
          | true =>
            have hcond : (decide (st.used_size + (e.content.length + (10 + e.path.length)) > cs)
                && !st.buffer.isEmpty) = false := by simp [hb]
            simp only [hcond, Bool.false_eq_true, if_false] at h
            rcases hrest : writeLoop cs false fuel rest
                ⟨st.chunk_idx, st.buffer ++ [⟨st.chunk_idx, e.path, e.content⟩],
                  st.used_size + (e.content.length + (10 + e.path.length))⟩ with _ | outs2
            · simp only [hrest] at h
              exact Option.noConfusion h
            · simp only [hrest, Option.some.injEq] at h
              subst h
              have hmap2 := ih _ outs2 hrest
              simpa using hmap2
        · have hcond : (decide (st.used_size + (e.content.length + (10 + e.path.length)) > cs)
              && !st.buffer.isEmpty) = false := by simp [hov]
          simp only [hcond, Bool.false_eq_true, if_false] at h
          rcases hrest : writeLoop cs false fuel rest
              ⟨st.chunk_idx, st.buffer ++ [⟨st.chunk_idx, e.path, e.content⟩],
                st.used_size + (e.content.length + (10 + e.path.length))⟩ with _ | outs2
          · simp only [hrest] at h
            exact Option.noConfusion h
          · simp only [hrest, Option.some.injEq] at h
            subst h
            have hmap2 := ih _ outs2 hrest
            simpa using hmap2
    | true =>
      simp only [if_true] at h
      by_cases hsize : (splitWS e.content).length ≥ cs
      · rw [if_pos hsize] at h
        cases hb : st.buffer.isEmpty with
        | false =>
          have hfl : flushChunk st =
              ([Out.chunk st.chunk_idx st.buffer], ⟨st.chunk_idx + 1, [], 0⟩) := by
            simp [flushChunk, hb]
          simp only [hfl] at h
          rcases hsp : splitLoopTokens cs e.path (splitWS e.content) fuel
              (st.chunk_idx + 1) 0 0 with _ | ⟨parts, idx⟩
          · simp only [hsp] at h
            exact Option.noConfusion h
          · simp only [hsp] at h
            rcases hrest : writeLoop cs true fuel rest ⟨idx, [], 0⟩ with _ | outs2
            · simp only [hrest] at h
              exact Option.noConfusion h
            · simp only [hrest, Option.some.injEq] at h
              subst h
              obtain ⟨hmap, hidx⟩ := splitLoopTokens_idx cs e.path (splitWS e.content) fuel
                (st.chunk_idx + 1) 0 0 parts idx hsp
              have hmap2 := ih ⟨idx, [], 0⟩ outs2 hrest
              subst hidx
              simp only [List.singleton_append, List.map_cons, List.map_append, hmap, hmap2,
                outIdx, List.length_cons, List.length_append]
              rw [range'_cons_append]
        | true =>
          have hfl : flushChunk st = ([], st) := by simp [flushChunk, hb]
          simp only [hfl] at h
          rcases hsp : splitLoopTokens cs e.path (splitWS e.content) fuel
              st.chunk_idx 0 0 with _ | ⟨parts, idx⟩
          · simp only [hsp] at h
            exact Option.noConfusion h
          · simp only [hsp] at h
            rcases hrest : writeLoop cs true fuel rest
                ⟨idx, st.buffer, st.used_size⟩ with _ | outs2
            · simp only [hrest] at h
              exact Option.noConfusion h
            · simp only [hrest, Option.some.injEq] at h
              subst h
              obtain ⟨hmap, hidx⟩ := splitLoopTokens_idx cs e.path (splitWS e.content) fuel
                st.chunk_idx 0 0 parts idx hsp
              have hmap2 := ih ⟨idx, st.buffer, st.used_size⟩ outs2 hrest
              subst hidx
              simp only [List.nil_append, List.map_append, hmap, hmap2,
                List.length_append]
              rw [range'_append1]
      · rw [if_neg hsize] at h
        by_cases hov : st.used_size + ((splitWS e.content).length + (10 + e.path.length)) > cs
        · cases hb : st.buffer.isEmpty with
          | false =>
            have hfl : flushChunk st =
                ([Out.chunk st.chunk_idx st.buffer], ⟨st.chunk_idx + 1, [], 0⟩) := by
              simp [flushChunk, hb]
            have hcond : (decide (st.used_size +
                  ((splitWS e.content).length + (10 + e.path.length)) > cs)
                && !st.buffer.isEmpty) = true := by simp [hb, hov]
            simp only [hcond, if_true, hfl] at h
            rcases hrest : writeLoop cs true fuel rest
                ⟨st.chunk_idx + 1,
                  [] ++ [⟨st.chunk_idx + 1, e.path, e.content⟩],
                  0 + ((splitWS e.content).length + (10 + e.path.length))⟩ with _ | outs2
            · simp only [hrest] at h
              exact Option.noConfusion h
            · simp only [hrest, Option.some.injEq] at h
              subst h
              have hmap2 := ih _ outs2 hrest
              simp only [List.singleton_append, List.map_cons, hmap2, outIdx,
                List.length_cons]
              rw [List.range'_succ]
          | true =>
            have hcond : (decide (st.used_size +
                  ((splitWS e.content).length + (10 + e.path.length)) > cs)
                && !st.buffer.isEmpty) = false := by simp [hb]
            simp only [hcond, Bool.false_eq_true, if_false] at h
            rcases hrest : writeLoop cs true fuel rest
                ⟨st.chunk_idx, st.buffer ++ [⟨st.chunk_idx, e.path, e.content⟩],
                  st.used_size + ((splitWS e.content).length + (10 + e.path.length))⟩ with
              _ | outs2
            · simp only [hrest] at h
              exact Option.noConfusion h
            · simp only [hrest, Option.some.injEq] at h
              subst h
              have hmap2 := ih _ outs2 hrest
              simpa using hmap2
        · have hcond : (decide (st.used_size +
              ((splitWS e.content).length + (10 + e.path.length)) > cs)
              && !st.buffer.isEmpty) = false := by simp [hov]
          simp only [hcond, Bool.false_eq_true, if_false] at h
          rcases hrest : writeLoop cs true fuel rest
              ⟨st.chunk_idx, st.buffer ++ [⟨st.chunk_idx, e.path, e.content⟩],
                st.used_size + ((splitWS e.content).length + (10 + e.path.length))⟩ with
            _ | outs2
          · simp only [hrest] at h
            exact Option.noConfusion h
          · simp only [hrest, Option.some.injEq] at h
            subst h
            have hmap2 := ih _ outs2 hrest
            simpa using hmap2

/-- Byte mode, all contents ASCII: the stripped contents emitted by the
`write_chunks` loop are the buffered contents followed by the remaining
entries' contents, in order. -/
lemma writeLoop_concat (cs : Nat) (fuel : Nat) :
    ∀ (entries : List Entry) (st : WState) (outs : List Out),
      (∀ e ∈ entries, ∀ b ∈ e.content, b < 0x80) →
      writeLoop cs false fuel entries st = some outs →
      (outs.map strippedOut).flatten =
        (st.buffer.map (fun f => f.content)).flatten ++
          (entries.map (fun e => e.content)).flatten := by
  intro entries
  induction entries with
  | nil =>
    intro st outs _ h
    rw [writeLoop] at h
    injection h with h
    subst h
    cases hb : st.buffer.isEmpty
    · simp [strippedOut]
    · have hbuf : st.buffer = [] := by
        cases hbl : st.buffer
        · rfl
        · rw [hbl] at hb
          cases hb
      simp [hb, hbuf]
  | cons e rest ih =>
    intro st outs hascii h
    have hae : ∀ b ∈ e.content, b < 0x80 :=
      hascii e (List.mem_cons_self e rest)
    have har : ∀ e2 ∈ rest, ∀ b ∈ e2.content, b < 0x80 :=
      fun e2 he2 => hascii e2 (List.mem_cons_of_mem e he2)
    rw [writeLoop] at h
    simp only [Bool.false_eq_true, if_false] at h
    by_cases hsize : e.content.length ≥ cs
    · rw [if_pos hsize] at h
      cases hb : st.buffer.isEmpty with
      | false =>
        have hfl : flushChunk st =
            ([Out.chunk st.chunk_idx st.buffer], ⟨st.chunk_idx + 1, [], 0⟩) := by
          simp [flushChunk, hb]
        simp only [hfl] at h
        rcases hsp : splitLoopBytes cs e.path e.content fuel (st.chunk_idx + 1) 0 0 with
          _ | ⟨parts, idx⟩
        · simp only [hsp] at h
          exact Option.noConfusion h
        · simp only [hsp] at h
          rcases hrest : writeLoop cs false fuel rest ⟨idx, [], 0⟩ with _ | outs2
          · simp only [hrest] at h
            exact Option.noConfusion h
          · simp only [hrest, Option.some.injEq] at h
            subst h
            have hparts := splitLoopBytes_concat cs e.path e.content hae fuel
              (st.chunk_idx + 1) 0 0 parts idx hsp
            have houts2 := ih ⟨idx, [], 0⟩ outs2 har hrest
            simp only [List.map_append, List.flatten_append, hparts, houts2,
              List.map_cons, List.map_nil, List.flatten_cons, List.flatten_nil,
              List.drop_zero, strippedOut, List.append_nil, List.nil_append]
            simp
      | true =>
        have hbuf : st.buffer = [] := by
          cases hbl : st.buffer
          · rfl
          · rw [hbl] at hb
            cases hb
        have hfl : flushChunk st = ([], st) := by simp [flushChunk, hb]
        simp only [hfl] at h
        rcases hsp : splitLoopBytes cs e.path e.content fuel st.chunk_idx 0 0 with
          _ | ⟨parts, idx⟩
        · simp only [hsp] at h
          exact Option.noConfusion h
        · simp only [hsp] at h
          rcases hrest : writeLoop cs false fuel rest
              ⟨idx, st.buffer, st.used_size⟩ with _ | outs2
          · simp only [hrest] at h
            exact Option.noConfusion h
          · simp only [hrest, Option.some.injEq] at h
            subst h
            have hparts := splitLoopBytes_concat cs e.path e.content hae fuel
              st.chunk_idx 0 0 parts idx hsp
            have houts2 := ih ⟨idx, st.buffer, st.used_size⟩ outs2 har hrest
            simp only [List.map_append, List.flatten_append, hparts, houts2,
              List.map_cons, List.flatten_cons, List.drop_zero, hbuf,
              List.map_nil, List.flatten_nil, List.append_nil, List.nil_append]
    · rw [if_neg hsize] at h
      by_cases hov : st.used_size + (e.content.length + (10 + e.path.length)) > cs
      · cases hb : st.buffer.isEmpty with
        | false =>
          have hfl : flushChunk st =
              ([Out.chunk st.chunk_idx st.buffer], ⟨st.chunk_idx + 1, [], 0⟩) := by
            simp [flushChunk, hb]
          have hcond : (decide (st.used_size + (e.content.length + (10 + e.path.length)) > cs)
              && !st.buffer.isEmpty) = true := by simp [hb, hov]
          simp only [hcond, if_true, hfl] at h
          rcases hrest : writeLoop cs false fuel rest
              ⟨st.chunk_idx + 1,
                [] ++ [⟨st.chunk_idx + 1, e.path, e.content⟩],
                0 + (e.content.length + (10 + e.path.length))⟩ with _ | outs2
          · simp only [hrest] at h
            exact Option.noConfusion h
          · simp only [hrest, Option.some.injEq] at h
            subst h
            have houts2 := ih _ outs2 har hrest
            simp only [List.nil_append] at houts2
            simp only [List.map_append, List.flatten_append, houts2, List.map_cons,
              List.map_nil, List.flatten_cons, List.flatten_nil, strippedOut,
              List.append_nil, List.nil_append]
        | true =>
          have hbuf : st.buffer = [] := by
            cases hbl : st.buffer
            · rfl
            · rw [hbl] at hb
              cases hb
          have hcond : (decide (st.used_size + (e.content.length + (10 + e.path.length)) > cs)
              && !st.buffer.isEmpty) = false := by simp [hb]
          simp only [hcond, Bool.false_eq_true, if_false] at h
          rcases hrest : writeLoop cs false fuel rest
              ⟨st.chunk_idx, st.buffer ++ [⟨st.chunk_idx, e.path, e.content⟩],
                st.used_size + (e.content.length + (10 + e.path.length))⟩ with _ | outs2
          · simp only [hrest] at h
            exact Option.noConfusion h
          · simp only [hrest, Option.some.injEq] at h
            subst h
            have houts2 := ih _ outs2 har hrest
            simp only [List.map_append, List.flatten_append, List.map_cons, List.map_nil,
              List.flatten_cons, List.flatten_nil, List.append_nil, List.nil_append] at houts2
            simp only [List.nil_append, houts2, hbuf, List.map_nil, List.flatten_nil,
              List.map_cons, List.flatten_cons, List.append_nil]
      · have hcond : (decide (st.used_size + (e.content.length + (10 + e.path.length)) > cs)
            && !st.buffer.isEmpty) = false := by simp [hov]
        simp only [hcond, Bool.false_eq_true, if_false] at h
        rcases hrest : writeLoop cs false fuel rest
            ⟨st.chunk_idx, st.buffer ++ [⟨st.chunk_idx, e.path, e.content⟩],
              st.used_size + (e.content.length + (10 + e.path.length))⟩ with _ | outs2
        · simp only [hrest] at h
          exact Option.noConfusion h
        · simp only [hrest, Option.some.injEq] at h
          subst h
          have houts2 := ih _ outs2 har hrest
          simp only [List.map_append, List.flatten_append, List.map_cons, List.map_nil,
            List.flatten_cons, List.flatten_nil, List.append_nil, List.nil_append] at houts2
          simp only [List.nil_append, houts2, List.map_cons, List.flatten_cons]
          simp

/-- C5: the claim includes force-split files with multi-byte UTF-8
content; but force-splitting slices at arbitrary byte offsets and decodes
each slice lossily, so the 2-byte character straddling the part boundary
of the 3-byte file [0x61, 0xC3, 0xA9] at threshold 2 becomes two U+FFFD
replacement sequences: the concatenation of the stripped bodies is not
the original content. -/
theorem C5_counterexample :
    (write_chunks [⟨[112], [97, 195, 169], 0⟩]
        ⟨[], [], [], some 2, false, false⟩ 100).map strippedAll =
      some [97, 239, 191, 189, 239, 191, 189] ∧
    ([97, 239, 191, 189, 239, 191, 189] : Bytes) ≠
      (([⟨[112], [97, 195, 169], 0⟩] : List Entry).map (fun e => e.content)).flatten := by
  refine ⟨by decide, by decide⟩

/-- C5 (amended): in byte mode, when every file content is ASCII (no
multi-byte sequence can straddle a part boundary), concatenating the
chunk bodies in index order - emission order, whose indices are exactly
`0, 1, ...` - and stripping the per-file headers reproduces every
included file content exactly once, byte for byte; a multi-byte sequence
cut by a forced-split boundary is instead replaced by U+FFFD. -/
theorem C5_amended_concat :
    ∀ (entries : List Entry) (config : YekConfig) (fuel : Nat) (outs : List Out),
      config.token_mode = false →
      (∀ e ∈ entries, ∀ b ∈ e.content, b < 0x80) →
      write_chunks entries config fuel = some outs →
      strippedAll outs = (entries.map (fun e => e.content)).flatten ∧
      outs.map outIdx = List.range' 0 outs.length := by
  intro entries config fuel outs hmode hascii h
  rw [write_chunks, hmode] at h
  constructor
  · have hc := writeLoop_concat (config.max_size.getD DEFAULT_CHUNK_SIZE) fuel entries
      ⟨0, [], 0⟩ outs hascii h
    simpa [strippedAll] using hc
  · exact writeLoop_idx (config.max_size.getD DEFAULT_CHUNK_SIZE) false fuel entries
      ⟨0, [], 0⟩ outs h

/-- Witness for C5 (amended) on a concrete one-file ASCII run. -/
theorem C5_amended_concat_witness :
    strippedAll [Out.chunk 0 [⟨0, [112], [104, 105]⟩]] =
      (([⟨[112], [104, 105], 0⟩] : List Entry).map (fun e => e.content)).flatten ∧
    ([Out.chunk 0 [⟨0, [112], [104, 105]⟩]] : List Out).map outIdx =
      List.range' 0 ([Out.chunk 0 [⟨0, [112], [104, 105]⟩]] : List Out).length :=
  C5_amended_concat [⟨[112], [104, 105], 0⟩] ⟨[], [], [], some 20, false, false⟩ 100
    [Out.chunk 0 [⟨0, [112], [104, 105]⟩]] (by decide) (by decide) (by decide)

/-- Commit-time comparison is total. -/
instance : IsTotal (Bytes × Nat) timeLe := ⟨fun a b => Nat.le_total a.2 b.2⟩

/-- Commit-time comparison is transitive. -/
instance : IsTrans (Bytes × Nat) timeLe := ⟨fun _ _ _ => Nat.le_trans⟩

/-- `HashMap::get(..).is_some()` is key membership, independent of the
iteration order. -/
lemma hmGetNat_isSome_iff (k : Bytes) :
    ∀ l : List (Bytes × Nat), (hmGetNat k l).isSome = true ↔ k ∈ l.map Prod.fst := by
  intro l
  induction l with
  | nil => simp [hmGetNat]
  | cons p rest ih =>
    rw [hmGetNat]
    by_cases hk : p.1 = k
    · simp [hk]
    · rw [if_neg hk]
      simp only [List.map_cons, List.mem_cons, ih]
      constructor
      · exact Or.inr
      · rintro (h | h)
        · exact absurd h.symm hk
        · exact h

/-- Two time-sorted arrangements of the same multiset of (path, time)
pairs with pairwise-distinct times are identical: sorting by timestamp is
unambiguous when no two files share a commit time. -/
lemma sorted_perm_eq_of_nodup_times :
    ∀ (l1 l2 : List (Bytes × Nat)), l1.Perm l2 →
      l1.Pairwise timeLe → l2.Pairwise timeLe →
      (l1.map Prod.snd).Nodup → l1 = l2 := by
  intro l1
  induction l1 with
  | nil =>
    intro l2 hperm _ _ _
    exact hperm.nil_eq
  | cons a t1 ih =>
    intro l2 hperm hs1 hs2 hnd
    cases l2 with
    | nil => exact absurd hperm.symm.nil_eq (by simp)
    | cons b t2 =>
      by_cases hab : a = b
      · subst hab
        have htail := hperm.cons_inv
        rw [ih t2 htail (List.pairwise_cons.mp hs1).2 (List.pairwise_cons.mp hs2).2
          (by simpa using (List.nodup_cons.mp (by simpa using hnd)).2)]
      · have hain : a ∈ t2 := by
          rcases List.mem_cons.mp (hperm.mem_iff.mp (List.mem_cons_self a t1)) with h | h
          · exact absurd h hab
          · exact h
        have hbin : b ∈ t1 := by
          rcases List.mem_cons.mp (hperm.symm.mem_iff.mp (List.mem_cons_self b t2)) with h | h
          · exact absurd h.symm hab
          · exact h
        have h1 : timeLe a b := (List.pairwise_cons.mp hs1).1 b hbin
        have h2 : timeLe b a := (List.pairwise_cons.mp hs2).1 a hain
        have heq : a.2 = b.2 := Nat.le_antisymm h1 h2
        exfalso
        have : a.2 ∈ t1.map Prod.snd := heq ▸ List.mem_map_of_mem Prod.snd hbin
        exact (List.nodup_cons.mp (by simpa using hnd)).1 this

/-- With pairwise-distinct commit times, the recency-boost map does not
depend on the hash-map iteration order. -/
lemma compute_recentness_boost_perm (t1 t2 : List (Bytes × Nat)) (max_boost : Int)
    (hperm : t1.Perm t2) (hnd : (t1.map Prod.snd).Nodup) :
    compute_recentness_boost t1 max_boost = compute_recentness_boost t2 max_boost := by
  have hsorted : List.insertionSort timeLe t1 = List.insertionSort timeLe t2 := by
    refine sorted_perm_eq_of_nodup_times _ _ ?_ ?_ ?_ ?_
    · exact (List.perm_insertionSort timeLe t1).trans
        (hperm.trans (List.perm_insertionSort timeLe t2).symm)
    · exact List.sorted_insertionSort timeLe t1
    · exact List.sorted_insertionSort timeLe t2
    · exact (((List.perm_insertionSort timeLe t1).map Prod.snd).nodup_iff).mpr hnd
  have hlen : t1.length = t2.length := hperm.length_eq
  rw [compute_recentness_boost, compute_recentness_boost, hsorted]
  by_cases hemp : t1.isEmpty
  · have h2 : t2.isEmpty = true := by
      rw [List.isEmpty_iff] at hemp ⊢
      rw [hemp] at hperm
      exact hperm.nil_eq.symm
    rw [if_pos hemp, if_pos h2]
  · have h2 : t2.isEmpty = false := by
      cases ht2 : t2.isEmpty with
      | false => rfl
      | true =>
        exfalso
        rw [List.isEmpty_iff] at ht2
        rw [ht2] at hperm
        exact hemp (List.isEmpty_iff.mpr hperm.symm.nil_eq.symm)
    rw [Bool.not_eq_true] at hemp
    rw [hemp, h2]
    simp only [Bool.false_eq_true, if_false]
    by_cases hlast : (List.insertionSort timeLe t2).length - 1 < 1
    · rw [if_pos hlast, if_pos hlast]
      have hl1 : t1.length = 1 := by
        have hl := (List.perm_insertionSort timeLe t2).length_eq
        have hne : t1 ≠ [] := by
          intro hn
          rw [hn] at hemp
          simp at hemp
        have : 1 ≤ t1.length := by
          cases t1
          · exact absurd rfl hne
          · simp
        omega
      obtain ⟨x, hx⟩ := List.length_eq_one.mp hl1
      rw [hx] at hperm
      have : t2 = [x] := List.perm_singleton.mp hperm.symm
      rw [hx, this]
    · rw [if_neg hlast, if_neg hlast]

/-- With pairwise-distinct commit times, the collected entries (and their
priorities) do not depend on the hash-map iteration order. -/
lemma collectEntries_times_perm (compileRe : String → Option (Bytes → Bool))
    (rules : List PriorityRule) (t1 t2 : List (Bytes × Nat))
    (hperm : t1.Perm t2) (hnd : (t1.map Prod.snd).Nodup) :
    ∀ items : List WalkItem,
      collectEntries compileRe rules (some t1) items =
        collectEntries compileRe rules (some t2) items := by
  intro items
  induction items with
  | nil => rfl
  | cons item rest ih =>
    match item with
    | WalkItem.err e => rfl
    | WalkItem.dir p =>
      rw [collectEntries, collectEntries, ih]
    | WalkItem.file path isText readContent =>
      match isText with
      | Except.error e => rfl
      | Except.ok false =>
        rw [collectEntries, collectEntries, ih]
      | Except.ok true =>
        match readContent with
        | Except.error e => rfl
        | Except.ok content =>
          simp only [collectEntries]
          have hsome : (hmGetNat path t1).isSome = (hmGetNat path t2).isSome := by
            cases hs2 : (hmGetNat path t2).isSome
            · cases hs1 : (hmGetNat path t1).isSome
              · rfl
              · exfalso
                rw [hmGetNat_isSome_iff] at hs1
                have := (hperm.map Prod.fst).mem_iff.mp hs1
                rw [← hmGetNat_isSome_iff] at this
                rw [this] at hs2
                cases hs2
            · rw [hmGetNat_isSome_iff] at hs2
              rw [hmGetNat_isSome_iff]
              exact (hperm.map Prod.fst).mem_iff.mpr hs2
          rw [hsome, compute_recentness_boost_perm t1 t2 50 hperm hnd, ih]

/-- C1: the claim includes histories where two files share a last-commit
timestamp; but `compute_recentness_boost` stable-sorts the hash-map
iteration order by timestamp only, so two iteration orders of the same
map (files A and B tied at time 1, C at time 2) assign the tied files
ranks 0/1 in opposite orders - boosts 0 vs 25 - which flips the sorted
entry order and produces different output bytes for identical input and
configuration. -/
theorem C1_counterexample :
    ([([65], 1), ([66], 1), ([67], 2)] : List (Bytes × Nat)).Perm
      [([66], 1), ([65], 1), ([67], 2)] ∧
    serialize_repo (fun _ => none) ⟨[], [], [], some 1000, false, false⟩
      (some [([65], 1), ([66], 1), ([67], 2)])
      [WalkItem.file [65] (Except.ok true) (Except.ok [97]),
       WalkItem.file [66] (Except.ok true) (Except.ok [98]),
       WalkItem.file [67] (Except.ok true) (Except.ok [99])] 100 =
      Except.ok (some [Out.chunk 0 [⟨0, [65], [97]⟩, ⟨0, [66], [98]⟩, ⟨0, [67], [99]⟩]]) ∧
    serialize_repo (fun _ => none) ⟨[], [], [], some 1000, false, false⟩
      (some [([66], 1), ([65], 1), ([67], 2)])
      [WalkItem.file [65] (Except.ok true) (Except.ok [97]),
       WalkItem.file [66] (Except.ok true) (Except.ok [98]),
       WalkItem.file [67] (Except.ok true) (Except.ok [99])] 100 =
      Except.ok (some [Out.chunk 0 [⟨0, [66], [98]⟩, ⟨0, [65], [97]⟩, ⟨0, [67], [99]⟩]]) ∧
    renderAll [Out.chunk 0 [⟨0, [65], [97]⟩, ⟨0, [66], [98]⟩, ⟨0, [67], [99]⟩]] ≠
      renderAll [Out.chunk 0 [⟨0, [66], [98]⟩, ⟨0, [65], [97]⟩, ⟨0, [67], [99]⟩]] := by
  refine ⟨by decide, by decide, by decide, by decide⟩

/-- C1 (amended): when all last-commit timestamps are pairwise distinct,
the output of `serialize_repo` is independent of the hash-map iteration
order, so re-running on identical input and configuration yields
byte-identical output; with tied timestamps the tie is broken by the
unspecified iteration order and the output can differ between runs. -/
theorem C1_amended_determinism :
    ∀ (compileRe : String → Option (Bytes → Bool)) (config : YekConfig)
      (items : List WalkItem) (fuel : Nat) (t1 t2 : List (Bytes × Nat)),
      t1.Perm t2 → (t1.map Prod.snd).Nodup →
      serialize_repo compileRe config (some t1) items fuel =
        serialize_repo compileRe config (some t2) items fuel := by
  intro compileRe config items fuel t1 t2 hperm hnd
  rw [serialize_repo, serialize_repo,
    collectEntries_times_perm compileRe config.priority_rules t1 t2 hperm hnd items]

/-- Witness for C1 (amended): two iteration orders of a distinct-time
history give the same run result. -/
theorem C1_amended_determinism_witness :
    serialize_repo (fun _ => none) ⟨[], [], [], some 1000, false, false⟩
      (some [([65], 1), ([67], 2)])
      [WalkItem.file [65] (Except.ok true) (Except.ok [97]),
       WalkItem.file [67] (Except.ok true) (Except.ok [99])] 100 =
    serialize_repo (fun _ => none) ⟨[], [], [], some 1000, false, false⟩
      (some [([67], 2), ([65], 1)])
      [WalkItem.file [65] (Except.ok true) (Except.ok [97]),
       WalkItem.file [67] (Except.ok true) (Except.ok [99])] 100 :=
  C1_amended_determinism (fun _ => none) ⟨[], [], [], some 1000, false, false⟩
    [WalkItem.file [65] (Except.ok true) (Except.ok [97]),
     WalkItem.file [67] (Except.ok true) (Except.ok [99])] 100
    [([65], 1), ([67], 2)] [([67], 2), ([65], 1)] (by decide) (by decide)
